import Mathlib

/-
  Shallow embedding of the OpFlash reconstruction algorithms
  (OpticalDetector/OpFlashAlg.cxx, namespace opdet).

  Modelling conventions:
  * C++ `double` values (times, widths, PE) are modelled as `ℚ`, except where
    the source computes `exp`/`sqrt`, which are modelled in `ℝ`.
  * `std::vector` indexing through `.at` / `operator[]` is modelled with
    `List.getD`/`List.set`; an out-of-range `.at` (which throws in C++) is
    modelled by the `getD` default chosen so that the surrounding algorithm
    treats the entry as inert.
  * External collaborators (pulse reconstruction, geometry, time service,
    channel map) are opaque parameters, mirroring the spec's interface section.
  * The two unbounded loops of RefineHitsInFlash are modelled with explicit
    fuel; termination (claim C7) is the theorem that the structural fuel
    bound always suffices.
-/

namespace opdet

/-- A reconstructed pulse as delivered by the external pulse-reco service
(pmtana::pulse_param fields used by the algorithm). -/
structure PulseParam where
  t_start : ℚ
  t_end : ℚ
  t_max : ℚ
  area : ℚ
  peak : ℚ
deriving Repr, DecidableEq

/-- recob::OpHit as constructed by ConstructHit. -/
structure OpHit where
  OpChannel : ℕ
  PeakTime : ℚ
  PeakTimeAbs : ℚ
  Frame : ℕ
  Width : ℚ
  Area : ℚ
  Amplitude : ℚ
  PE : ℚ
  FastToTotal : ℚ
deriving Repr, DecidableEq

instance : Inhabited OpHit := ⟨⟨0, 0, 0, 0, 0, 0, 0, 0, 0⟩⟩

/-- One time-binned PE accumulator: per-bin PE sums, per-bin contributor hit
indices, and the list of flash-flagged bins (FlashesInAccumulator). -/
structure AccumState where
  Binned : List ℚ
  Contributors : List (List ℕ)
  Flashes : List ℕ
deriving Repr, DecidableEq

/-- Fresh accumulator with n zeroed bins. -/
def AccumState.init (n : ℕ) : AccumState :=
  ⟨List.replicate n 0, List.replicate n (([] : List ℕ)), []⟩

/-- OpFlashAlg.cxx FillAccumulator: push the hit index onto the bin's
contributor list, add its PE to the bin sum, and flag the bin when the sum
crosses the flash threshold from below. -/
def FillAccumulator (AccumIndex HitIndex : ℕ) (PE : ℚ) (FlashThreshold : ℚ)
    (a : AccumState) : AccumState :=
  let Contributors := a.Contributors.set AccumIndex (a.Contributors.getD AccumIndex [] ++ [HitIndex])
  let newSum := a.Binned.getD AccumIndex 0 + PE
  let Binned := a.Binned.set AccumIndex newSum
  let Flashes :=
    if FlashThreshold ≤ newSum ∧ newSum - PE < FlashThreshold then
      a.Flashes ++ [AccumIndex]
    else a.Flashes
  ⟨Binned, Contributors, Flashes⟩

/-- Fold FillAccumulator over a stream of (bin index, hit index, PE) triples. -/
def FillAccumulatorAll (stream : List (ℕ × ℕ × ℚ)) (thr : ℚ) (a : AccumState) : AccumState :=
  stream.foldl (fun a e => FillAccumulator e.1 e.2.1 e.2.2 thr a) a

/-- OpFlashAlg.cxx GetAccumIndex: bin index of a pulse peak; the C++ value is
a double divided by an int, converted to unsigned (truncation). -/
def GetAccumIndex (TMax : ℚ) (TimeSlice : ℕ) (BinWidth : ℕ) (BinOffset : ℚ) : ℕ :=
  (((TMax + (TimeSlice : ℚ)) + BinOffset) / (BinWidth : ℚ)).floor.toNat

/-- OpFlashAlg.cxx ConstructHit: drop pulses below the amplitude threshold,
otherwise append a hit built from the pulse and calibration.  The absolute and
trigger-relative times come from the external time service and are passed in. -/
def ConstructHit (HitThreshold : ℚ) (Channel : ℕ) (TimeSlice : ℕ) (Frame : ℕ)
    (pulse : PulseParam) (AbsTime RelTime : ℚ) (TickPeriod : ℚ) (SPESize : ℚ)
    (HitVector : List OpHit) : List OpHit :=
  if pulse.peak < HitThreshold then HitVector
  else
    HitVector ++ [⟨Channel, RelTime, AbsTime, Frame,
                   (pulse.t_end - pulse.t_start) * TickPeriod,
                   pulse.area, pulse.peak, pulse.peak / SPESize, 0⟩]

/-- Scalar configuration and external services consumed per frame
(geometry, time service, calibration), as in the spec's interface section. -/
structure FrameParams where
  BinWidth : ℕ
  HitThreshold : ℚ
  FlashThreshold : ℚ
  WidthTolerance : ℚ
  TrigCoinc : ℚ
  NOpChannels : ℕ
  Nplanes : ℕ
  SPESize : List ℚ
  FrameTicks : ℕ
  TickPeriod : ℚ
  tick2time : ℚ → ℕ → ℕ → ℚ
  tick2beam : ℚ → ℕ → ℕ → ℚ
  TrigFrame : ℕ
  centerY : ℕ → ℚ
  centerZ : ℕ → ℚ
  nearestWire : ℕ → ℕ → ℕ

/-- One input waveform after the external channel map has been applied:
the mapped channel, its time slice, and the pulses the external
pulse-reconstruction service found on it. -/
structure Waveform where
  Channel : ℤ
  TimeSlice : ℕ
  pulses : List PulseParam
deriving Repr, DecidableEq

/-- Mutable state of ProcessFrame's hit-construction loop:
the (global, append-only) hit list and the two offset accumulators. -/
structure FrameState where
  hits : List OpHit
  acc1 : AccumState
  acc2 : AccumState
deriving Repr, DecidableEq

/-- Number of bins of each accumulator: (FrameTicks + 3000 + BinWidth)/BinWidth. -/
def NAccumBins (P : FrameParams) : ℕ :=
  (P.FrameTicks + 3000 + P.BinWidth) / P.BinWidth

/-- Initial frame state: prior frames' hits plus two zeroed accumulators. -/
def initFrameState (P : FrameParams) (hv0 : List OpHit) : FrameState :=
  ⟨hv0, AccumState.init (NAccumBins P), AccumState.init (NAccumBins P)⟩

/-- The body of ProcessFrame's per-pulse loop (lines 141-176): ConstructHit,
then fill both accumulators with `HitVector.size()-1` and the last hit's PE.
The source does this unconditionally, even when ConstructHit appended
nothing; with an empty hit list the C++ indexes out of bounds (undefined
behaviour), modelled here as leaving the accumulators unchanged. -/
def ProcessPulse (P : FrameParams) (Frame : ℕ) (Channel : ℤ) (TimeSlice : ℕ)
    (st : FrameState) (pulse : PulseParam) : FrameState :=
  let hits2 := ConstructHit P.HitThreshold Channel.toNat TimeSlice Frame pulse
      (P.tick2time pulse.t_max TimeSlice Frame) (P.tick2beam pulse.t_max TimeSlice Frame)
      P.TickPeriod (P.SPESize.getD Channel.toNat 0) st.hits
  match hits2.getLast? with
  | none => ⟨hits2, st.acc1, st.acc2⟩
  | some lastHit =>
    let HitIndex := hits2.length - 1
    let acc1 := FillAccumulator (GetAccumIndex pulse.t_max TimeSlice P.BinWidth 0)
        HitIndex lastHit.PE P.FlashThreshold st.acc1
    let acc2 := FillAccumulator (GetAccumIndex pulse.t_max TimeSlice P.BinWidth ((P.BinWidth / 2 : ℕ) : ℚ))
        HitIndex lastHit.PE P.FlashThreshold st.acc2
    ⟨hits2, acc1, acc2⟩

/-- Per-waveform part of ProcessFrame's loop: channel and time-slice
validation (skip with diagnostic), then the per-pulse loop. -/
def ProcessWaveform (P : FrameParams) (Frame : ℕ) (st : FrameState) (w : Waveform) : FrameState :=
  if w.Channel < 0 ∨ w.Channel > (P.NOpChannels : ℤ) then st
  else if w.TimeSlice > P.FrameTicks then st
  else w.pulses.foldl (ProcessPulse P Frame w.Channel w.TimeSlice) st

/-- ProcessFrame's hit-construction phase over all waveforms of the frame. -/
def FrameHitState (P : FrameParams) (Frame : ℕ) (wfs : List Waveform) (hv0 : List OpHit) : FrameState :=
  wfs.foldl (ProcessWaveform P Frame) (initFrameState P hv0)

/-- Sum of the PE of the named hits (with multiplicity), as the source's
explicit loops compute it through HitVector.at(i).PE(). -/
def sumPE (hv : List OpHit) (l : List ℕ) : ℚ :=
  (l.map fun i => (hv.getD i default).PE).sum

/-- OpFlashAlg.cxx FillHitsThisFlash: the hits of a flagged bin that are not
yet claimed by any coarse flash.  HitClaimedByFlash is indexed frame-locally
(global hit index minus NHits_prev); an unclaimed entry is -1. -/
def FillHitsThisFlash (Contributors : List (List ℕ)) (Bin : ℕ) (NHits_prev : ℕ)
    (HitClaimedByFlash : List ℤ) : List ℕ :=
  (Contributors.getD Bin []).filter
    (fun HitIndex => HitClaimedByFlash.getD (HitIndex - NHits_prev) 0 = -1)

/-- OpFlashAlg.cxx ClaimHits: accept the candidate hit set as a coarse flash
when its summed PE reaches the flash threshold, and claim its still-unclaimed
hits for the new flash. -/
def ClaimHits (hv : List OpHit) (HitsThisFlash : List ℕ) (FlashThreshold : ℚ)
    (HitsPerFlash : List (List ℕ)) (NHits_prev : ℕ) (HitClaimedByFlash : List ℤ) :
    List (List ℕ) × List ℤ :=
  if sumPE hv HitsThisFlash < FlashThreshold then (HitsPerFlash, HitClaimedByFlash)
  else
    let HitsPerFlash2 := HitsPerFlash ++ [HitsThisFlash]
    let claimed := HitsThisFlash.foldl
      (fun cl Hit =>
        if cl.getD (Hit - NHits_prev) 0 = -1 then
          cl.set (Hit - NHits_prev) ((HitsPerFlash2.length : ℤ) - 1)
        else cl)
      HitClaimedByFlash
    (HitsPerFlash2, claimed)

/-- The processing order of FlashesBySize: flagged bins of both accumulators,
keyed by bin PE in descending order, accumulator 1 before accumulator 2 on
ties, bins in flag (insertion) order within one accumulator and key.  Each
element is (accumulator, bin). -/
def FlashesBySizeOrder (F1 F2 : List ℕ) (B1 B2 : List ℚ) : List (ℕ × ℕ) :=
  let keys := ((F1.map fun b => B1.getD b 0) ++ (F2.map fun b => B2.getD b 0)).dedup.insertionSort
    (fun a b => b ≤ a)
  (keys.map fun pe =>
    ((F1.filter fun b => B1.getD b 0 = pe).map fun b => ((1 : ℕ), b)) ++
    ((F2.filter fun b => B2.getD b 0 = pe).map fun b => ((2 : ℕ), b))).flatten

/-- OpFlashAlg.cxx AssignHitsToFlash: walk flagged bins from largest summed
PE to smallest, greedily claiming unclaimed hits into coarse flashes. -/
def AssignHitsToFlash (F1 F2 : List ℕ) (B1 B2 : List ℚ)
    (Contr1 Contr2 : List (List ℕ)) (NHits : ℕ) (hv : List OpHit)
    (FlashThreshold : ℚ) : List (List ℕ) :=
  let NHits_prev := hv.length - NHits
  ((FlashesBySizeOrder F1 F2 B1 B2).foldl
    (fun st ab =>
      let HitsThisFlash :=
        FillHitsThisFlash (if ab.1 = 1 then Contr1 else Contr2) ab.2 NHits_prev st.2
      ClaimHits hv HitsThisFlash FlashThreshold st.1 NHits_prev st.2)
    (([] : List (List ℕ)), List.replicate NHits (-1 : ℤ))).1

/-- Mutable state of one seed-and-grow round in RefineHitsInFlash:
HitsUsed, HitsThisRefinedFlash, PEAccumulated, FlashMaxTime, FlashMinTime. -/
structure RefState where
  used : List Bool
  cand : List ℕ
  PEAcc : ℚ
  maxT : ℚ
  minT : ℚ
deriving Repr, DecidableEq

/-- The iteration order of the refiner's HitsBySize map: the coarse flash's
hits keyed by PE descending, insertion order within equal keys. -/
def HitsBySizeOrder (l : List ℕ) (hv : List OpHit) : List ℕ :=
  let keys := (l.map fun i => (hv.getD i default).PE).dedup.insertionSort (fun a b => b ≤ a)
  (keys.map fun pe => l.filter fun i => (hv.getD i default).PE = pe).flatten

/-- OpFlashAlg.cxx FindSeedHit: seed a refined flash with the largest unused
hit, marking it used; none when every hit is used. -/
def FindSeedHit (pool : List ℕ) (used : List Bool) (hv : List OpHit) : Option RefState :=
  match pool.find? (fun hid => !(used.getD hid true)) with
  | none => none
  | some hid =>
    let h := hv.getD hid default
    some ⟨used.set hid true, [hid], h.PE, h.PeakTime + h.Width / 2, h.PeakTime - h.Width / 2⟩

/-- OpFlashAlg.cxx AddHitToFlash: add an unused hit whose peak time is within
WidthTolerance·(half hit width + half flash width) of the window centre,
expanding the window and accumulating PE. -/
def AddHitToFlash (HitID : ℕ) (currentHit : OpHit) (WidthTolerance : ℚ) (s : RefState) : RefState :=
  if s.used.getD HitID true then s
  else
    let HitTime := currentHit.PeakTime
    let HitWidth := currentHit.Width / 2
    let FlashTime := (s.maxT + s.minT) / 2
    let FlashWidth := (s.maxT - s.minT) / 2
    if |HitTime - FlashTime| > WidthTolerance * (HitWidth + FlashWidth) then s
    else
      ⟨s.used.set HitID true, s.cand ++ [HitID], s.PEAcc + currentHit.PE,
       max s.maxT (HitTime + HitWidth), min s.minT (HitTime - HitWidth)⟩

/-- One full scan of RefineHitsInFlash's inner collection loop over the
size-ordered hits of the coarse flash. -/
def GrowPass (pool : List ℕ) (hv : List OpHit) (WidthTolerance : ℚ) (s : RefState) : RefState :=
  pool.foldl (fun s hid => AddHitToFlash hid (hv.getD hid default) WidthTolerance s) s

/-- RefineHitsInFlash's inner while loop (repeat the scan until a pass adds
no hit), with explicit fuel; N is the size recorded before the last pass. -/
def GrowLoop (pool : List ℕ) (hv : List OpHit) (WidthTolerance : ℚ) :
    ℕ → ℕ → RefState → Option RefState
  | 0, N, s => if N < s.cand.length then none else some s
  | fuel + 1, N, s =>
    if N < s.cand.length then
      GrowLoop pool hv WidthTolerance fuel s.cand.length (GrowPass pool hv WidthTolerance s)
    else some s

/-- OpFlashAlg.cxx CheckAndStoreFlash: store the refined group when its
accumulated PE reaches the flash threshold; otherwise discard a singleton
outright, or release every hit but the seed back to unused. -/
def CheckAndStoreFlash (RefinedHitsPerFlash : List (List ℕ)) (cand : List ℕ)
    (PEAccumulated : ℚ) (FlashThreshold : ℚ) (used : List Bool) :
    List (List ℕ) × List Bool :=
  if FlashThreshold ≤ PEAccumulated then (RefinedHitsPerFlash ++ [cand], used)
  else if cand.length = 1 then (RefinedHitsPerFlash, used)
  else (RefinedHitsPerFlash, (cand.drop 1).foldl (fun u hid => u.set hid false) used)

/-- RefineHitsInFlash's outer while loop with explicit fuel: seed, grow to a
fixed point, check-and-store, repeat until no unused hit is left. -/
def RefineLoop (pool : List ℕ) (hv : List OpHit) (WidthTolerance FlashThreshold : ℚ) :
    ℕ → List Bool → List (List ℕ) → Option (List (List ℕ) × List Bool)
  | 0, used, out =>
    match FindSeedHit pool used hv with
    | none => some (out, used)
    | some _ => none
  | fuel + 1, used, out =>
    match FindSeedHit pool used hv with
    | none => some (out, used)
    | some s =>
      match GrowLoop pool hv WidthTolerance (used.length + 2) 0 s with
      | none => none
      | some s2 =>
        let r := CheckAndStoreFlash out s2.cand s2.PEAcc FlashThreshold s2.used
        RefineLoop pool hv WidthTolerance FlashThreshold fuel r.2 r.1

/-- OpFlashAlg.cxx RefineHitsInFlash: split one coarse flash into refined
flashes, appending them to RefinedHitsPerFlash.  The fuel hv.length + 1
always suffices (claim C7); the fallback branch is never taken. -/
def RefineHitsInFlash (HitsThisFlash : List ℕ) (hv : List OpHit)
    (RefinedHitsPerFlash : List (List ℕ)) (WidthTolerance FlashThreshold : ℚ) :
    List (List ℕ) :=
  match RefineLoop (HitsBySizeOrder HitsThisFlash hv) hv WidthTolerance FlashThreshold
      (hv.length + 1) (List.replicate hv.length false) RefinedHitsPerFlash with
  | some r => r.1
  | none => RefinedHitsPerFlash

/-- ProcessFrame's refinement loop over every coarse flash. -/
def RefineAll (HitsPerFlash : List (List ℕ)) (hv : List OpHit)
    (WidthTolerance FlashThreshold : ℚ) : List (List ℕ) :=
  HitsPerFlash.foldl (fun acc c => RefineHitsInFlash c hv acc WidthTolerance FlashThreshold) []

/-- The coarse flashes of one frame (hit loop plus AssignHitsToFlash). -/
def FrameCoarse (P : FrameParams) (Frame : ℕ) (wfs : List Waveform) (hv0 : List OpHit) :
    List (List ℕ) :=
  let st := FrameHitState P Frame wfs hv0
  AssignHitsToFlash st.acc1.Flashes st.acc2.Flashes st.acc1.Binned st.acc2.Binned
    st.acc1.Contributors st.acc2.Contributors (st.hits.length - hv0.length)
    st.hits P.FlashThreshold

/-- The refined flashes of one frame, as handed to ConstructFlash. -/
def FrameRefined (P : FrameParams) (Frame : ℕ) (wfs : List Waveform) (hv0 : List OpHit) :
    List (List ℕ) :=
  RefineAll (FrameCoarse P Frame wfs hv0) (FrameHitState P Frame wfs hv0).hits
    P.WidthTolerance P.FlashThreshold

/-- Accumulator state of OpFlashAlg.cxx AddHitContribution. -/
structure ContribState where
  MaxTime : ℚ
  MinTime : ℚ
  AveTime : ℚ
  FastToTotal : ℚ
  AveAbsTime : ℚ
  TotalPE : ℚ
  PEs : List ℚ
deriving Repr, DecidableEq

/-- ConstructFlash's initial aggregates: MaxTime -1e9, MinTime 1e9,
zeroed sums, zeroed per-channel PE vector. -/
def ContribState.init (n : ℕ) : ContribState :=
  ⟨-(10 ^ 9), 10 ^ 9, 0, 0, 0, 0, List.replicate n 0⟩

/-- OpFlashAlg.cxx AddHitContribution: extend the time window and accumulate
the PE-weighted sums and per-channel PE of one hit. -/
def AddHitContribution (h : OpHit) (c : ContribState) : ContribState :=
  { MaxTime := if h.PeakTime > c.MaxTime then h.PeakTime else c.MaxTime
    MinTime := if h.PeakTime < c.MinTime then h.PeakTime else c.MinTime
    AveTime := c.AveTime + h.PeakTime * h.PE
    FastToTotal := c.FastToTotal + h.FastToTotal * h.PE
    AveAbsTime := c.AveAbsTime + h.PeakTimeAbs * h.PE
    TotalPE := c.TotalPE + h.PE
    PEs := c.PEs.set h.OpChannel (c.PEs.getD h.OpChannel 0 + h.PE) }

/-- ConstructFlash's contribution loop over a refined hit set. -/
def AddAllHitContributions (s : List ℕ) (hv : List OpHit) (n : ℕ) : ContribState :=
  s.foldl (fun c i => AddHitContribution (hv.getD i default) c) (ContribState.init n)

/-- Accumulator state of OpFlashAlg.cxx GetHitGeometryInfo. -/
structure GeoState where
  sumw : List ℚ
  sumw2 : List ℚ
  sumy : ℚ
  sumy2 : ℚ
  sumz : ℚ
  sumz2 : ℚ
deriving Repr, DecidableEq

/-- Zeroed geometry aggregates for Nplanes wire planes. -/
def GeoState.init (n : ℕ) : GeoState :=
  ⟨List.replicate n 0, List.replicate n 0, 0, 0, 0, 0⟩

/-- OpFlashAlg.cxx GetHitGeometryInfo: PE-weighted sums of the hit channel's
centre coordinates and nearest-wire indices, via the external geometry. -/
def GetHitGeometryInfo (P : FrameParams) (h : OpHit) (g : GeoState) : GeoState :=
  let upd := (List.range P.Nplanes).foldl
    (fun (sw : List ℚ × List ℚ) p =>
      let w : ℚ := (P.nearestWire h.OpChannel p : ℚ)
      (sw.1.set p (sw.1.getD p 0 + w * h.PE), sw.2.set p (sw.2.getD p 0 + w * w * h.PE)))
    (g.sumw, g.sumw2)
  { sumw := upd.1
    sumw2 := upd.2
    sumy := g.sumy + P.centerY h.OpChannel * h.PE
    sumy2 := g.sumy2 + P.centerY h.OpChannel * P.centerY h.OpChannel * h.PE
    sumz := g.sumz + P.centerZ h.OpChannel * h.PE
    sumz2 := g.sumz2 + P.centerZ h.OpChannel * P.centerZ h.OpChannel * h.PE }

/-- ConstructFlash's geometry loop over a refined hit set. -/
def AllHitGeometryInfo (s : List ℕ) (hv : List OpHit) (P : FrameParams) : GeoState :=
  s.foldl (fun g i => GetHitGeometryInfo P (hv.getD i default) g) (GeoState.init P.Nplanes)

/-- OpFlashAlg.cxx CalculateWidth: sqrt(sum_squared*weights_sum + sum*sum)/weights_sum. -/
noncomputable def CalculateWidth (sum sum_squared weights_sum : ℚ) : ℝ :=
  Real.sqrt ((sum_squared * weights_sum + sum * sum : ℚ)) / (weights_sum : ℚ)

/-- recob::OpFlash as emitted by ConstructFlash.  The RMS-style widths
involve sqrt and live in ℝ; everything the pipeline branches on is ℚ. -/
structure FlashRec where
  Time : ℚ
  TimeWidth : ℚ
  AbsTime : ℚ
  Frame : ℕ
  PEs : List ℚ
  InBeamFrame : Bool
  OnBeamTime : Bool
  FastToTotal : ℚ
  YCenter : ℚ
  YWidth : ℝ
  ZCenter : ℚ
  ZWidth : ℝ
  WireCenters : List ℚ
  WireWidths : List ℝ

instance : Inhabited FlashRec :=
  ⟨⟨0, 0, 0, 0, [], false, false, 0, 0, 0, 0, 0, [], []⟩⟩

/-- recob::OpFlash::TotalPE: the sum of the per-channel PE vector. -/
def FlashRec.TotalPE (f : FlashRec) : ℚ := f.PEs.sum

/-- OpFlashAlg.cxx ConstructFlash: aggregate one refined hit set into a
flash record (PE-weighted means, widths, per-channel PE, beam flags).
The source interleaves AddHitContribution and GetHitGeometryInfo in one
loop over the hits; their states are independent, so the two folds here
compute the same aggregates. -/
noncomputable def ConstructFlash (s : List ℕ) (hv : List OpHit) (P : FrameParams)
    (Frame : ℕ) : FlashRec :=
  let c := AddAllHitContributions s hv P.NOpChannels
  let g := AllHitGeometryInfo s hv P
  let AveTime := c.AveTime / c.TotalPE
  { Time := AveTime
    TimeWidth := (c.MaxTime - c.MinTime) / 2
    AbsTime := c.AveAbsTime / c.TotalPE
    Frame := Frame
    PEs := c.PEs
    InBeamFrame := decide (Frame = P.TrigFrame)
    OnBeamTime := decide (|AveTime| < P.TrigCoinc)
    FastToTotal := c.FastToTotal / c.TotalPE
    YCenter := g.sumy / c.TotalPE
    YWidth := CalculateWidth g.sumy g.sumy2 c.TotalPE
    ZCenter := g.sumz / c.TotalPE
    ZWidth := CalculateWidth g.sumz g.sumz2 c.TotalPE
    WireCenters := (List.range P.Nplanes).map (fun p => g.sumw.getD p 0 / c.TotalPE)
    WireWidths := (List.range P.Nplanes).map
      (fun p => CalculateWidth (g.sumw.getD p 0) (g.sumw2.getD p 0) c.TotalPE) }

/-- The hypothetical late-light PE of flash j under flash i,
iPE * jWidth / iWidth * exp(-(jTime-iTime)/1.6). -/
noncomputable def HypPE (iPE iTime iWidth jTime jWidth : ℚ) : ℝ :=
  (iPE : ℝ) * (jWidth : ℝ) / (iWidth : ℝ) * Real.exp (-(((jTime : ℝ) - (iTime : ℝ))) / 1.6)

/-- OpFlashAlg.cxx GetLikelihoodLateLight: 1e6 when i is later than j,
otherwise the significance (jPE - HypPE)/sqrt(HypPE). -/
noncomputable def GetLikelihoodLateLight (iPE iTime iWidth jPE jTime jWidth : ℚ) : ℝ :=
  if iTime > jTime then 10 ^ 6
  else ((jPE : ℝ) - HypPE iPE iTime iWidth jTime jWidth) /
    Real.sqrt (HypPE iPE iTime iWidth jTime jWidth)

/-- The late-light significance of the ordered flash pair (i, j) read from
the (sorted) flash vector, as MarkFlashesForRemoval computes it. -/
noncomputable def FlashPairSig (fv : List FlashRec) (i j : ℕ) : ℝ :=
  GetLikelihoodLateLight (fv.getD i default).TotalPE (fv.getD i default).Time
    (fv.getD i default).TimeWidth (fv.getD j default).TotalPE
    (fv.getD j default).Time (fv.getD j default).TimeWidth

/-- The inner j loop of MarkFlashesForRemoval for one fixed i: skip an
already-marked j, otherwise mark it when the significance is below 3. -/
noncomputable def MarkInner (fv : List FlashRec) (BeginFlash i : ℕ) (marked : List Bool) :
    List Bool :=
  (List.range' (i + 1) (fv.length - (i + 1))).foldl
    (fun m j =>
      if m.getD (j - BeginFlash) false then m
      else if FlashPairSig fv i j < 3 then m.set (j - BeginFlash) true
      else m)
    marked

/-- OpFlashAlg.cxx MarkFlashesForRemoval: compare every flash i from
BeginFlash on (marked or not) against every later flash j. -/
noncomputable def MarkFlashesForRemoval (fv : List FlashRec) (BeginFlash : ℕ)
    (marked0 : List Bool) : List Bool :=
  (List.range' BeginFlash (fv.length - BeginFlash)).foldl
    (fun m i => MarkInner fv BeginFlash i m) marked0

/-- OpFlashAlg.cxx RemoveFlashesFromVectors: erase marked flashes and their
association entries, from the highest index downward. -/
def RemoveFlashesFromVectors (marked : List Bool) (fv : List FlashRec)
    (BeginFlash : ℕ) (rf : List (List ℕ)) : List FlashRec × List (List ℕ) :=
  (List.range marked.length).reverse.foldl
    (fun st i =>
      if marked.getD i false then (st.1.eraseIdx (BeginFlash + i), st.2.eraseIdx i)
      else st)
    (fv, rf)

/-- OpFlashAlg.cxx RemoveLateLight: sort this frame's tail of the flash
vector by time (the association list is NOT re-sorted alongside it), mark
late-light flashes, and erase them. -/
noncomputable def RemoveLateLight (fv : List FlashRec) (rf : List (List ℕ)) :
    List FlashRec × List (List ℕ) :=
  let BeginFlash := fv.length - rf.length
  let sorted := fv.take BeginFlash ++
    (fv.drop BeginFlash).insertionSort (fun a b => a.Time ≤ b.Time)
  let marked := MarkFlashesForRemoval sorted BeginFlash (List.replicate rf.length false)
  RemoveFlashesFromVectors marked sorted BeginFlash rf

/-- ProcessFrame's flash-construction loop: one flash record appended per
refined hit set, after any flashes of previous frames. -/
noncomputable def FrameFlashVector (P : FrameParams) (Frame : ℕ) (wfs : List Waveform)
    (hv0 : List OpHit) (fv0 : List FlashRec) : List FlashRec :=
  (FrameRefined P Frame wfs hv0).foldl
    (fun fv s => fv ++ [ConstructFlash s (FrameHitState P Frame wfs hv0).hits P Frame]) fv0

/-- The frame's flash vector and refined hit sets after the late-light pass. -/
noncomputable def FrameFinal (P : FrameParams) (Frame : ℕ) (wfs : List Waveform)
    (hv0 : List OpHit) (fv0 : List FlashRec) : List FlashRec × List (List ℕ) :=
  RemoveLateLight (FrameFlashVector P Frame wfs hv0 fv0) (FrameRefined P Frame wfs hv0)

/-- OpFlashAlg.cxx ProcessFrame: hit loop, coarse assignment, refinement,
flash construction, late-light removal, then the association list is
extended with the refined hit sets shifted by NHits_prev. -/
noncomputable def ProcessFrame (P : FrameParams) (Frame : ℕ) (wfs : List Waveform)
    (hv0 : List OpHit) (fv0 : List FlashRec) (assoc0 : List (List ℕ)) :
    List OpHit × List FlashRec × List (List ℕ) :=
  ((FrameHitState P Frame wfs hv0).hits,
   (FrameFinal P Frame wfs hv0 fv0).1,
   assoc0 ++ (FrameFinal P Frame wfs hv0 fv0).2.map (fun l => l.map (· + hv0.length)))

/-- Re-gather the hits named by one association entry from the global hit
list and sum their PE per channel (the round-trip check of the spec). -/
def regatherPEs (hv : List OpHit) (idxs : List ℕ) (n : ℕ) : List ℚ :=
  idxs.foldl
    (fun PEs i =>
      let h := hv.getD i default
      PEs.set h.OpChannel (PEs.getD h.OpChannel 0 + h.PE))
    (List.replicate n 0)

/-- Concrete frame configuration for the worked counterexamples and
witnesses: 4 channels, unit SPE, bin width 1000 (so 4 accumulator bins),
hit threshold 1, flash threshold 10, trivial geometry and time services. -/
def cP : FrameParams :=
  { BinWidth := 1000, HitThreshold := 1, FlashThreshold := 10, WidthTolerance := 1,
    TrigCoinc := 1, NOpChannels := 4, Nplanes := 0, SPESize := [1, 1, 1, 1],
    FrameTicks := 0, TickPeriod := 1,
    tick2time := fun t ts _ => t + ts, tick2beam := fun t ts _ => t + ts,
    TrigFrame := 0, centerY := fun _ => 0, centerZ := fun _ => 0,
    nearestWire := fun _ _ => 0 }

/-- Two hits pretending to come from an earlier frame, so that NHits_prev
is nonzero when the concrete frame below is processed. -/
def cHv0 : List OpHit := [⟨0, 0, 0, 0, 2, 1, 1, 6, 0⟩, ⟨3, 0, 0, 0, 2, 1, 1, 6, 0⟩]

/-- Two waveforms of one pulse each (channels 1 and 2, peaks 60 at ticks
100 and 102): they merge into a single flash of total PE 120. -/
def cWfs : List Waveform :=
  [⟨1, 0, [⟨99, 101, 100, 1, 60⟩]⟩, ⟨2, 0, [⟨101, 103, 102, 1, 60⟩]⟩]

/-- The full frame output for the concrete input: two prior hits, one frame
with one emitted flash. -/
noncomputable def cOut : List OpHit × List FlashRec × List (List ℕ) :=
  ProcessFrame cP 1 cWfs cHv0 [] []

/-- An accepted pulse (peak 60 at tick 100, above the hit threshold 1). -/
def cPulseAbove : PulseParam := ⟨99, 101, 100, 1, 60⟩

/-- A rejected pulse: peak 1/2 is below the hit threshold 1. -/
def cPulseBelow : PulseParam := ⟨10, 12, 11, 1, 1 / 2⟩

/-- Frame state after processing the accepted pulse on channel 1. -/
def cStateAfterFirst : FrameState :=
  ProcessPulse cP 1 1 0 (initFrameState cP []) cPulseAbove

/-- Two association entries are disjoint: no hit index lies in both. -/
def Disj (a b : List ℕ) : Prop := ∀ x, x ∈ a → x ∉ b

/-- Invariant carried through the FillAccumulator fold: the flagged list has
no duplicates and holds exactly the bins whose sum has reached the threshold,
and every bin sum is non-negative. -/
def AccumInv (n : ℕ) (thr : ℚ) (a : AccumState) : Prop :=
  a.Binned.length = n ∧ a.Flashes.Nodup ∧
  (∀ b, b ∈ a.Flashes ↔ b < n ∧ thr ≤ a.Binned.getD b 0) ∧
  (∀ b, 0 ≤ a.Binned.getD b 0)

/-- Invariant of AssignHitsToFlash's fold: the coarse flashes collected so
far are pairwise disjoint, every hit of a collected flash is recorded as
claimed, and every collected flash meets the threshold. -/
def AssignInv (hv : List OpHit) (thr : ℚ) (prev : ℕ) (st : List (List ℕ) × List ℤ) : Prop :=
  st.1.Pairwise Disj ∧
  (∀ l ∈ st.1, ∀ h ∈ l, st.2.getD (h - prev) 0 ≠ -1) ∧
  (∀ l ∈ st.1, thr ≤ sumPE hv l)

/-- Two concrete flash records used to witness the marking-pass claims. -/
def flashA : FlashRec := ⟨0, 1, 0, 0, [100], true, true, 0, 0, 0, 0, 0, [], []⟩

/-- Second concrete flash record for the marking-pass witnesses. -/
def flashB : FlashRec := ⟨5, 1, 5, 0, [50], true, false, 0, 0, 0, 0, 0, [], []⟩

/-- Invariant of RefineHitsInFlash's seed-and-grow state, relative to the
hit pool of the coarse flash, the HitsUsed vector `used0` from before the
seed was taken, and the seed.  The candidate always starts with the seed,
has no duplicates, consists of in-range pool hits that are marked used now
but were unused before the seed was taken, the used vector only ever gains
marks, and PEAccumulated is the candidate's exact PE sum. -/
def InvG (pool : List ℕ) (hv : List OpHit) (used0 : List Bool) (seed : ℕ) (s : RefState) : Prop :=
  s.used.length = used0.length ∧
  s.cand.Nodup ∧
  (∃ t, s.cand = seed :: t) ∧
  (∀ h ∈ s.cand, h ∈ pool ∧ h < used0.length ∧
    s.used.getD h false = true ∧ used0.getD h false = false) ∧
  (∀ i, used0.getD i false = true → s.used.getD i false = true) ∧
  s.PEAcc = sumPE hv s.cand

/-- Invariant of RefineHitsInFlash's outer loop: the stored refined flashes
are pairwise disjoint and every stored hit from the pool is marked used. -/
def RefineInv (pool : List ℕ) (used : List Bool) (out : List (List ℕ)) : Prop :=
  out.Pairwise Disj ∧ (∀ l ∈ out, ∀ h ∈ l, h ∈ pool → used.getD h false = true)

/-- Number of unused entries of a HitsUsed vector (used as the refiner's
termination measure). -/
def countFalse : List Bool → ℕ
  | [] => 0
  | b :: l => (if b then 0 else 1) + countFalse l

/-! ### Generic list helpers -/

theorem getD_set {α : Type} (l : List α) (i j : ℕ) (a d : α) :
    (l.set i a).getD j d = if i = j ∧ j < l.length then a else l.getD j d := by
  induction l generalizing i j with
  | nil => simp
  | cons x xs ih =>
    cases i with
    | zero =>
      cases j with
      | zero => simp
      | succ j => simp [Nat.succ_lt_succ_iff]
    | succ i =>
      cases j with
      | zero => simp
      | succ j =>
        simp only [List.set_cons_succ, List.getD_cons_succ, ih i j, List.length_cons]
        by_cases hc : i = j ∧ j < xs.length
        · rw [if_pos hc, if_pos (by omega)]
        · rw [if_neg hc, if_neg (by omega)]

theorem getD_replicate {α : Type} (n j : ℕ) (x d : α) :
    (List.replicate n x).getD j d = if j < n then x else d := by
  rw [List.getD_eq_getElem?_getD, List.getElem?_replicate]
  split <;> simp

theorem mem_range1 (m s n : ℕ) : m ∈ List.range' s n ↔ s ≤ m ∧ m < s + n := by
  rw [List.mem_range']
  constructor
  · rintro ⟨i, hi, rfl⟩; omega
  · intro h; exact ⟨m - s, by omega, by omega⟩

/-! ### Claim C6: dual-accumulator edge-triggered flagging -/


theorem fillAccumulator_Flashes (idx hid : ℕ) (pe thr : ℚ) (a : AccumState) :
    (FillAccumulator idx hid pe thr a).Flashes =
      if thr ≤ a.Binned.getD idx 0 + pe ∧ a.Binned.getD idx 0 + pe - pe < thr
      then a.Flashes ++ [idx] else a.Flashes := rfl

theorem fillAccumulator_Binned (idx hid : ℕ) (pe thr : ℚ) (a : AccumState) :
    (FillAccumulator idx hid pe thr a).Binned =
      a.Binned.set idx (a.Binned.getD idx 0 + pe) := rfl

theorem fillAccumulator_inv {n : ℕ} {thr : ℚ} (hthr : 0 < thr)
    {idx : ℕ} (hidx : idx < n) {pe : ℚ} (hpe : 0 ≤ pe)
    (hid : ℕ) {a : AccumState} (ha : AccumInv n thr a) :
    AccumInv n thr (FillAccumulator idx hid pe thr a) := by
  obtain ⟨hlen, hnd, hiff, hnn⟩ := ha
  have hs : ∀ b, (a.Binned.set idx (a.Binned.getD idx 0 + pe)).getD b 0 =
      if idx = b ∧ b < n then a.Binned.getD idx 0 + pe else a.Binned.getD b 0 := by
    intro b; rw [getD_set, hlen]
  refine ⟨by rw [fillAccumulator_Binned, List.length_set, hlen], ?_, ?_, ?_⟩
  · rw [fillAccumulator_Flashes]
    by_cases hc : thr ≤ a.Binned.getD idx 0 + pe ∧ a.Binned.getD idx 0 + pe - pe < thr
    · have hnotmem : idx ∉ a.Flashes := by
        intro hmem
        have h1 := ((hiff idx).mp hmem).2
        have h2 : a.Binned.getD idx 0 + pe - pe < thr := hc.2
        rw [add_sub_cancel_right] at h2
        linarith
      rw [if_pos hc]
      exact List.Nodup.append hnd (List.nodup_singleton idx)
        (by simpa [List.disjoint_singleton] using hnotmem)
    · rw [if_neg hc]; exact hnd
  · intro b
    rw [fillAccumulator_Flashes, fillAccumulator_Binned, hs b]
    by_cases hc : thr ≤ a.Binned.getD idx 0 + pe ∧ a.Binned.getD idx 0 + pe - pe < thr
    · rw [if_pos hc]
      simp only [List.mem_append, List.mem_singleton]
      by_cases hb : idx = b
      · subst hb
        rw [if_pos (And.intro rfl hidx)]
        constructor
        · intro _; exact ⟨hidx, hc.1⟩
        · intro _; exact Or.inr rfl
      · rw [if_neg (fun h => hb h.1), hiff b]
        constructor
        · rintro (h | h)
          · exact h
          · exact absurd h.symm hb
        · exact Or.inl
    · rw [if_neg hc, hiff b]
      have hsa : a.Binned.getD idx 0 + pe - pe = a.Binned.getD idx 0 := by ring
      rw [hsa] at hc
      by_cases hb : idx = b
      · subst hb
        rw [if_pos (And.intro rfl hidx)]
        constructor
        · intro h; exact ⟨h.1, by linarith [h.2]⟩
        · intro h
          rcases not_and_or.mp hc with h1 | h1
          · exact absurd h.2 h1
          · push_neg at h1
            exact ⟨h.1, by linarith⟩
      · rw [if_neg (fun h => hb h.1)]
  · intro b
    rw [fillAccumulator_Binned, hs b]
    by_cases hb : idx = b ∧ b < n
    · simp only [if_pos hb]
      have h3 := hnn idx
      rcases hb with ⟨rfl, _⟩
      linarith
    · simp only [if_neg hb]; exact hnn b


theorem fillAccumulatorAll_inv {stream : List (ℕ × ℕ × ℚ)} {n : ℕ} {thr : ℚ}
    (hthr : 0 < thr) (hstream : ∀ e ∈ stream, e.1 < n ∧ 0 ≤ e.2.2)
    {a : AccumState} (ha : AccumInv n thr a) :
    AccumInv n thr (FillAccumulatorAll stream thr a) := by
  induction stream generalizing a with
  | nil => exact ha
  | cons e es ih =>
    have he := hstream e (List.mem_cons_self e es)
    exact ih (fun x hx => hstream x (List.mem_cons_of_mem e hx))
      (fillAccumulator_inv hthr he.1 he.2 e.2.1 ha)

theorem accumInit_inv (n : ℕ) {thr : ℚ} (hthr : 0 < thr) :
    AccumInv n thr (AccumState.init n) := by
  refine ⟨by simp [AccumState.init], List.nodup_nil, ?_, ?_⟩
  · intro b
    simp only [AccumState.init, List.not_mem_nil, false_iff, getD_replicate]
    rintro ⟨hb, h⟩
    rw [if_pos hb] at h
    linarith
  · intro b
    simp only [AccumState.init, getD_replicate]
    split <;> norm_num

/-- C6: FillAccumulator flags a bin exactly when the added hit makes the
bin's PE sum cross the flash threshold from below (sum ≥ threshold and
sum − PE < threshold), and, for non-negative per-hit PE and a positive
threshold, a bin is flagged at most once over a whole frame: the flagged
list stays duplicate-free and holds exactly the bins whose sum has reached
the threshold. -/
theorem claim_C6 :
    (∀ (a : AccumState) (idx hid : ℕ) (pe thr : ℚ),
      (FillAccumulator idx hid pe thr a).Flashes =
        if thr ≤ a.Binned.getD idx 0 + pe ∧ a.Binned.getD idx 0 + pe - pe < thr
        then a.Flashes ++ [idx] else a.Flashes) ∧
    (∀ (stream : List (ℕ × ℕ × ℚ)) (n : ℕ) (thr : ℚ),
      0 < thr → (∀ e ∈ stream, e.1 < n ∧ 0 ≤ e.2.2) →
      (FillAccumulatorAll stream thr (AccumState.init n)).Flashes.Nodup ∧
      (∀ b, b ∈ (FillAccumulatorAll stream thr (AccumState.init n)).Flashes ↔
        b < n ∧ thr ≤ (FillAccumulatorAll stream thr (AccumState.init n)).Binned.getD b 0)) := by
  constructor
  · intro a idx hid pe thr; rfl
  · intro stream n thr hthr hstream
    have h := fillAccumulatorAll_inv hthr hstream (accumInit_inv n hthr)
    exact ⟨h.2.1, h.2.2.1⟩

/-- Witness for C6 at a concrete stream: two hits of PE 5 and 3 into bin 0
with threshold 6; the bin is flagged exactly once. -/
theorem claim_C6_witness :
    (0 : ℚ) < 6 ∧ (∀ e ∈ [((0 : ℕ), (0 : ℕ), (5 : ℚ)), (0, 1, 3)], e.1 < 1 ∧ (0 : ℚ) ≤ e.2.2) ∧
    ((FillAccumulatorAll [((0 : ℕ), (0 : ℕ), (5 : ℚ)), (0, 1, 3)] 6 (AccumState.init 1)).Flashes.Nodup ∧
      (∀ b, b ∈ (FillAccumulatorAll [((0 : ℕ), (0 : ℕ), (5 : ℚ)), (0, 1, 3)] 6 (AccumState.init 1)).Flashes ↔
        b < 1 ∧ 6 ≤ (FillAccumulatorAll [((0 : ℕ), (0 : ℕ), (5 : ℚ)), (0, 1, 3)] 6 (AccumState.init 1)).Binned.getD b 0)) :=
  ⟨by norm_num,
   by
     intro e he
     simp only [List.mem_cons, List.not_mem_nil, or_false] at he
     rcases he with rfl | rfl <;> norm_num,
   claim_C6.2 [((0 : ℕ), (0 : ℕ), (5 : ℚ)), (0, 1, 3)] 1 6 (by norm_num)
     (by
       intro e he
       simp only [List.mem_cons, List.not_mem_nil, or_false] at he
       rcases he with rfl | rfl <;> norm_num)⟩

/-! ### Claims C9 and C10: the late-light significance function -/

theorem hypPE_pos {iPE iWidth jWidth : ℚ} (hiPE : 0 < iPE) (hiW : 0 < iWidth)
    (hjW : 0 < jWidth) (iTime jTime : ℚ) :
    0 < HypPE iPE iTime iWidth jTime jWidth := by
  have h1 : (0 : ℝ) < (iPE : ℝ) := by exact_mod_cast hiPE
  have h2 : (0 : ℝ) < (iWidth : ℝ) := by exact_mod_cast hiW
  have h3 : (0 : ℝ) < (jWidth : ℝ) := by exact_mod_cast hjW
  exact mul_pos (div_pos (mul_pos h1 h3) h2) (Real.exp_pos _)

theorem hypPE_strictAnti {iPE iWidth jWidth : ℚ} (hiPE : 0 < iPE) (hiW : 0 < iWidth)
    (hjW : 0 < jWidth) (iTime : ℚ) {jTime1 jTime2 : ℚ} (h12 : jTime1 < jTime2) :
    HypPE iPE iTime iWidth jTime2 jWidth < HypPE iPE iTime iWidth jTime1 jWidth := by
  have h1 : (0 : ℝ) < (iPE : ℝ) := by exact_mod_cast hiPE
  have h2 : (0 : ℝ) < (iWidth : ℝ) := by exact_mod_cast hiW
  have h3 : (0 : ℝ) < (jWidth : ℝ) := by exact_mod_cast hjW
  have ht : ((jTime1 : ℝ)) < (jTime2 : ℝ) := by exact_mod_cast h12
  unfold HypPE
  apply mul_lt_mul_of_pos_left _ (div_pos (mul_pos h1 h3) h2)
  rw [Real.exp_lt_exp]
  have h16 : (0 : ℝ) < 1.6 := by norm_num
  rw [div_lt_div_iff_of_pos_right h16]
  linarith

theorem sig_eq_of_le {iPE iTime iWidth jPE jTime jWidth : ℚ} (h : iTime ≤ jTime) :
    GetLikelihoodLateLight iPE iTime iWidth jPE jTime jWidth =
      ((jPE : ℝ) - HypPE iPE iTime iWidth jTime jWidth) /
        Real.sqrt (HypPE iPE iTime iWidth jTime jWidth) := by
  unfold GetLikelihoodLateLight
  rw [if_neg (not_lt.mpr h)]

/-- C9: strict monotonicity of the late-light test in the time gap: with
iPE > 0, iWidth > 0, jWidth > 0, jPE ≥ 0 fixed and iTime ≤ jTime1 < jTime2,
the hypothetical PE strictly decreases and the significance returned by
GetLikelihoodLateLight strictly increases as the gap grows. -/
theorem claim_C9 (iPE iTime iWidth jPE jTime1 jTime2 jWidth : ℚ)
    (hiPE : 0 < iPE) (hiW : 0 < iWidth) (hjW : 0 < jWidth) (hjPE : 0 ≤ jPE)
    (h1 : iTime ≤ jTime1) (h12 : jTime1 < jTime2) :
    HypPE iPE iTime iWidth jTime2 jWidth < HypPE iPE iTime iWidth jTime1 jWidth ∧
    GetLikelihoodLateLight iPE iTime iWidth jPE jTime1 jWidth <
      GetLikelihoodLateLight iPE iTime iWidth jPE jTime2 jWidth := by
  have hH2pos := hypPE_pos hiPE hiW hjW iTime jTime2
  have hH1pos := hypPE_pos hiPE hiW hjW iTime jTime1
  have hlt := hypPE_strictAnti hiPE hiW hjW iTime h12
  refine ⟨hlt, ?_⟩
  rw [sig_eq_of_le h1, sig_eq_of_le (le_of_lt (lt_of_le_of_lt h1 h12))]
  set H1 := HypPE iPE iTime iWidth jTime1 jWidth with hH1
  set H2 := HypPE iPE iTime iWidth jTime2 jWidth with hH2
  have hs1 : (0 : ℝ) < Real.sqrt H1 := Real.sqrt_pos.mpr hH1pos
  have hs2 : (0 : ℝ) < Real.sqrt H2 := Real.sqrt_pos.mpr hH2pos
  have hss : Real.sqrt H2 < Real.sqrt H1 := Real.sqrt_lt_sqrt hH2pos.le hlt
  have hjPE' : (0 : ℝ) ≤ (jPE : ℝ) := by exact_mod_cast hjPE
  rw [sub_div, sub_div, Real.div_sqrt, Real.div_sqrt]
  have hdiv : (jPE : ℝ) / Real.sqrt H1 ≤ (jPE : ℝ) / Real.sqrt H2 := by
    gcongr
  linarith

/-- Witness for C9 at a concrete input: unit PE and widths, gap 0 versus 1. -/
theorem claim_C9_witness :
    (0 : ℚ) < 1 ∧ (0 : ℚ) ≤ 0 ∧ (0 : ℚ) ≤ (0 : ℚ) ∧ (0 : ℚ) < (1 : ℚ) ∧
    (HypPE 1 0 1 1 1 < HypPE 1 0 1 0 1 ∧
      GetLikelihoodLateLight 1 0 1 0 0 1 < GetLikelihoodLateLight 1 0 1 0 1 1) :=
  ⟨by norm_num, le_refl 0, le_refl 0, by norm_num,
   claim_C9 1 0 1 0 0 1 1 (by norm_num) (by norm_num) (by norm_num)
     (le_refl 0) (le_refl 0) (by norm_num)⟩

/-! ### Claims C8 and C10: the marking pass of the late-light filter -/

theorem markInner_fold_length (fv : List FlashRec) (BeginFlash i : ℕ) :
    ∀ (js : List ℕ) (m : List Bool),
      (js.foldl (fun m j =>
        if m.getD (j - BeginFlash) false then m
        else if FlashPairSig fv i j < 3 then m.set (j - BeginFlash) true else m) m).length
      = m.length := by
  intro js
  induction js with
  | nil => intro m; rfl
  | cons j js ih =>
    intro m
    rw [List.foldl_cons, ih]
    by_cases hm : m.getD (j - BeginFlash) false
    · rw [if_pos hm]
    · rw [if_neg hm]
      by_cases hs : FlashPairSig fv i j < 3
      · rw [if_pos hs, List.length_set]
      · rw [if_neg hs]

theorem markInner_fold_getD (fv : List FlashRec) (BeginFlash i : ℕ) :
    ∀ (js : List ℕ) (m : List Bool) (q : ℕ),
      ((js.foldl (fun m j =>
        if m.getD (j - BeginFlash) false then m
        else if FlashPairSig fv i j < 3 then m.set (j - BeginFlash) true else m) m).getD q false = true
      ↔ (m.getD q false = true ∨
          ∃ j ∈ js, j - BeginFlash = q ∧ q < m.length ∧ FlashPairSig fv i j < 3)) := by
  intro js
  induction js with
  | nil => intro m q; simp
  | cons j js ih =>
    intro m q
    rw [List.foldl_cons]
    by_cases hm : m.getD (j - BeginFlash) false
    · rw [if_pos hm, ih]
      constructor
      · rintro (h | ⟨j', hj', hq, hlen, hsig⟩)
        · exact Or.inl h
        · exact Or.inr ⟨j', List.mem_cons_of_mem j hj', hq, hlen, hsig⟩
      · rintro (h | ⟨j', hj', hq, hlen, hsig⟩)
        · exact Or.inl h
        · rcases List.mem_cons.mp hj' with rfl | hj'
          · exact Or.inl (hq ▸ hm)
          · exact Or.inr ⟨j', hj', hq, hlen, hsig⟩
    · rw [if_neg hm]
      by_cases hs : FlashPairSig fv i j < 3
      · rw [if_pos hs, ih]
        rw [List.length_set]
        constructor
        · rintro (h | ⟨j', hj', hq, hlen, hsig⟩)
          · rw [getD_set] at h
            by_cases hc : j - BeginFlash = q ∧ q < m.length
            · exact Or.inr ⟨j, List.mem_cons_self j js, hc.1, hc.2, hs⟩
            · rw [if_neg hc] at h
              exact Or.inl h
          · exact Or.inr ⟨j', List.mem_cons_of_mem j hj', hq, hlen, hsig⟩
        · rintro (h | ⟨j', hj', hq, hlen, hsig⟩)
          · left
            rw [getD_set]
            by_cases hc : j - BeginFlash = q ∧ q < m.length
            · rw [if_pos hc]
            · rw [if_neg hc]; exact h
          · rcases List.mem_cons.mp hj' with rfl | hj'
            · left
              rw [getD_set, if_pos ⟨hq, hlen⟩]
            · exact Or.inr ⟨j', hj', hq, hlen, hsig⟩
      · rw [if_neg hs, ih]
        constructor
        · rintro (h | ⟨j', hj', hq, hlen, hsig⟩)
          · exact Or.inl h
          · exact Or.inr ⟨j', List.mem_cons_of_mem j hj', hq, hlen, hsig⟩
        · rintro (h | ⟨j', hj', hq, hlen, hsig⟩)
          · exact Or.inl h
          · rcases List.mem_cons.mp hj' with rfl | hj'
            · exact absurd hsig hs
            · exact Or.inr ⟨j', hj', hq, hlen, hsig⟩

theorem markInner_length (fv : List FlashRec) (BeginFlash i : ℕ) (m : List Bool) :
    (MarkInner fv BeginFlash i m).length = m.length :=
  markInner_fold_length fv BeginFlash i _ m

theorem markInner_getD (fv : List FlashRec) (BeginFlash i : ℕ) (m : List Bool) (q : ℕ) :
    ((MarkInner fv BeginFlash i m).getD q false = true
    ↔ (m.getD q false = true ∨
        ∃ j, i + 1 ≤ j ∧ j < fv.length ∧ j - BeginFlash = q ∧ q < m.length ∧
          FlashPairSig fv i j < 3)) := by
  unfold MarkInner
  rw [markInner_fold_getD]
  constructor
  · rintro (h | ⟨j, hj, hq, hlen, hsig⟩)
    · exact Or.inl h
    · rw [mem_range1] at hj
      exact Or.inr ⟨j, hj.1, by omega, hq, hlen, hsig⟩
  · rintro (h | ⟨j, hj1, hj2, hq, hlen, hsig⟩)
    · exact Or.inl h
    · exact Or.inr ⟨j, (mem_range1 j (i + 1) (fv.length - (i + 1))).mpr ⟨hj1, by omega⟩,
        hq, hlen, hsig⟩

theorem markOuter_getD (fv : List FlashRec) (BeginFlash : ℕ) :
    ∀ (is' : List ℕ) (m : List Bool) (q : ℕ),
      ((is'.foldl (fun m i => MarkInner fv BeginFlash i m) m).getD q false = true
      ↔ (m.getD q false = true ∨
          ∃ i ∈ is', ∃ j, i + 1 ≤ j ∧ j < fv.length ∧ j - BeginFlash = q ∧
            q < m.length ∧ FlashPairSig fv i j < 3)) := by
  intro is'
  induction is' with
  | nil => intro m q; simp
  | cons i is' ih =>
    intro m q
    rw [List.foldl_cons, ih, markInner_getD, markInner_length]
    constructor
    · rintro ((h | ⟨j, hj1, hj2, hq, hlen, hsig⟩) | ⟨i', hi', hrest⟩)
      · exact Or.inl h
      · exact Or.inr ⟨i, List.mem_cons_self i is', j, hj1, hj2, hq, hlen, hsig⟩
      · exact Or.inr ⟨i', List.mem_cons_of_mem i hi', hrest⟩
    · rintro (h | ⟨i', hi', hrest⟩)
      · exact Or.inl (Or.inl h)
      · rcases List.mem_cons.mp hi' with rfl | hi'
        · exact Or.inl (Or.inr hrest)
        · exact Or.inr ⟨i', hi', hrest⟩

theorem markOuter_length (fv : List FlashRec) (BeginFlash : ℕ) :
    ∀ (is' : List ℕ) (m : List Bool),
      (is'.foldl (fun m i => MarkInner fv BeginFlash i m) m).length = m.length := by
  intro is'
  induction is' with
  | nil => intro m; rfl
  | cons i is' ih => intro m; rw [List.foldl_cons, ih, markInner_length]

/-- The semantic content of the marking pass: starting from an all-false
vector, flash j ends up marked exactly when some flash i between BeginFlash
and j (marked or not) gives a significance below 3 against j. -/
theorem marked_iff (fv : List FlashRec) (BeginFlash j : ℕ)
    (hBj : BeginFlash ≤ j) (hj : j < fv.length) :
    ((MarkFlashesForRemoval fv BeginFlash
        (List.replicate (fv.length - BeginFlash) false)).getD (j - BeginFlash) false = true
    ↔ ∃ i, BeginFlash ≤ i ∧ i < j ∧ FlashPairSig fv i j < 3) := by
  unfold MarkFlashesForRemoval
  rw [markOuter_getD]
  rw [List.length_replicate]
  constructor
  · rintro (h | ⟨i, hi, j', hj'1, hj'2, hq, hlen, hsig⟩)
    · rw [getD_replicate] at h
      split at h <;> simp_all
    · rw [mem_range1] at hi
      have hj'eq : j' = j := by omega
      subst hj'eq
      exact ⟨i, hi.1, by omega, hsig⟩
  · rintro ⟨i, hi1, hi2, hsig⟩
    refine Or.inr ⟨i, (mem_range1 i BeginFlash (fv.length - BeginFlash)).mpr ⟨hi1, by omega⟩,
      j, by omega, hj, rfl, by omega, hsig⟩

/-- C8: in the marking pass (significance cutoff 3, all-false initial marks)
an already-marked flash is only skipped as a candidate, while every earlier
flash, marked or not, still serves as the bright-parent basis; hence flash j
is marked exactly when some earlier flash i of the frame gives a late-light
significance below 3 against it. -/
theorem claim_C8 (fv : List FlashRec) (BeginFlash j : ℕ)
    (h1 : BeginFlash ≤ j) (h2 : j < fv.length) :
    ((MarkFlashesForRemoval fv BeginFlash
        (List.replicate (fv.length - BeginFlash) false)).getD (j - BeginFlash) false = true
    ↔ ∃ i, BeginFlash ≤ i ∧ i < j ∧ FlashPairSig fv i j < 3) :=
  marked_iff fv BeginFlash j h1 h2


/-- Witness for C8 at a concrete two-flash vector with BeginFlash 0, j 1. -/
theorem claim_C8_witness :
    (0 : ℕ) ≤ 1 ∧ 1 < [flashA, flashB].length ∧
    ((MarkFlashesForRemoval [flashA, flashB] 0
        (List.replicate ([flashA, flashB].length - 0) false)).getD (1 - 0) false = true
    ↔ ∃ i, 0 ≤ i ∧ i < 1 ∧ FlashPairSig [flashA, flashB] i 1 < 3) :=
  ⟨Nat.zero_le 1, by decide, claim_C8 [flashA, flashB] 0 1 (Nat.zero_le 1) (by decide)⟩

/-- C10: when flash i is strictly later than flash j, GetLikelihoodLateLight
returns 1e6, which is not below the cutoff 3; consequently the marking pass
only ever attributes a flash as late light of an earlier-or-equal-time flash,
however ties are ordered. -/
theorem claim_C10 :
    (∀ iPE iTime iWidth jPE jTime jWidth : ℚ, jTime < iTime →
      GetLikelihoodLateLight iPE iTime iWidth jPE jTime jWidth = 10 ^ 6 ∧
      ¬(GetLikelihoodLateLight iPE iTime iWidth jPE jTime jWidth < 3)) ∧
    (∀ (fv : List FlashRec) (BeginFlash j : ℕ), BeginFlash ≤ j → j < fv.length →
      (MarkFlashesForRemoval fv BeginFlash
        (List.replicate (fv.length - BeginFlash) false)).getD (j - BeginFlash) false = true →
      ∃ i, BeginFlash ≤ i ∧ i < j ∧
        (fv.getD i default).Time ≤ (fv.getD j default).Time ∧ FlashPairSig fv i j < 3) := by
  have key : ∀ iPE iTime iWidth jPE jTime jWidth : ℚ, jTime < iTime →
      GetLikelihoodLateLight iPE iTime iWidth jPE jTime jWidth = 10 ^ 6 ∧
      ¬(GetLikelihoodLateLight iPE iTime iWidth jPE jTime jWidth < 3) := by
    intro iPE iTime iWidth jPE jTime jWidth h
    have he : GetLikelihoodLateLight iPE iTime iWidth jPE jTime jWidth = 10 ^ 6 := by
      unfold GetLikelihoodLateLight
      rw [if_pos h]
    refine ⟨he, ?_⟩
    rw [he]
    norm_num
  refine ⟨key, ?_⟩
  intro fv BeginFlash j hBj hj hmark
  obtain ⟨i, hi1, hi2, hsig⟩ := (marked_iff fv BeginFlash j hBj hj).mp hmark
  refine ⟨i, hi1, hi2, ?_, hsig⟩
  by_contra hlt
  push_neg at hlt
  exact (key _ _ _ _ _ _ hlt).2 hsig

/-- Witness for C10: iTime 5 > jTime 2 gives significance 1e6, not below 3. -/
theorem claim_C10_witness :
    (2 : ℚ) < 5 ∧
    (GetLikelihoodLateLight 1 5 1 1 2 1 = 10 ^ 6 ∧
      ¬(GetLikelihoodLateLight 1 5 1 1 2 1 < 3)) :=
  ⟨by norm_num, claim_C10.1 1 5 1 1 2 1 (by norm_num)⟩

/-! ### The greedy claiming stage: exclusivity and threshold invariants -/



theorem claimfold_ne {prev : ℕ} {v : ℤ} (hv' : v ≠ -1) :
    ∀ (lst : List ℕ) (cl : List ℤ) (i : ℕ), cl.getD i 0 ≠ -1 →
      (lst.foldl (fun cl Hit =>
        if cl.getD (Hit - prev) 0 = -1 then cl.set (Hit - prev) v else cl) cl).getD i 0 ≠ -1 := by
  intro lst
  induction lst with
  | nil => intro cl i h; exact h
  | cons x xs ih =>
    intro cl i h
    rw [List.foldl_cons]
    apply ih
    by_cases hc : cl.getD (x - prev) 0 = -1
    · rw [if_pos hc, getD_set]
      by_cases hq : x - prev = i ∧ i < cl.length
      · rw [if_pos hq]; exact hv'
      · rw [if_neg hq]; exact h
    · rw [if_neg hc]; exact h

theorem claimfold_mem {prev : ℕ} {v : ℤ} (hv' : v ≠ -1) :
    ∀ (lst : List ℕ) (cl : List ℤ), ∀ h ∈ lst,
      (lst.foldl (fun cl Hit =>
        if cl.getD (Hit - prev) 0 = -1 then cl.set (Hit - prev) v else cl) cl).getD (h - prev) 0 ≠ -1 := by
  intro lst
  induction lst with
  | nil => intro cl h hmem; exact absurd hmem (List.not_mem_nil h)
  | cons x xs ih =>
    intro cl h hmem
    rw [List.foldl_cons]
    rcases List.mem_cons.mp hmem with rfl | hmem'
    · apply claimfold_ne hv'
      by_cases hc : cl.getD (h - prev) 0 = -1
      · rw [if_pos hc, getD_set]
        by_cases hq : h - prev = h - prev ∧ h - prev < cl.length
        · rw [if_pos hq]; exact hv'
        · rw [if_neg hq]
          -- out of range: the entry reads as the default 0 and the
          -- condition getD = -1 contradicts it
          have hrange : ¬(h - prev < cl.length) := fun hh => hq ⟨rfl, hh⟩
          rw [List.getD_eq_getElem?_getD, List.getElem?_eq_none (by omega)] at hc
          simp at hc
      · rw [if_neg hc]; exact hc
    · exact ih _ h hmem'

theorem fillHitsThisFlash_unclaimed (Contributors : List (List ℕ)) (Bin prev : ℕ)
    (claimed : List ℤ) :
    ∀ h ∈ FillHitsThisFlash Contributors Bin prev claimed, claimed.getD (h - prev) 0 = -1 := by
  intro h hmem
  have := List.of_mem_filter hmem
  simpa using this

theorem claimHits_inv {hv : List OpHit} {thr : ℚ} {prev : ℕ}
    {out : List (List ℕ)} {claimed : List ℤ} {lst : List ℕ}
    (hlst : ∀ h ∈ lst, claimed.getD (h - prev) 0 = -1)
    (hinv : AssignInv hv thr prev (out, claimed)) :
    AssignInv hv thr prev (ClaimHits hv lst thr out prev claimed) := by
  obtain ⟨hpw, hcl, hthr⟩ := hinv
  unfold ClaimHits
  by_cases hs : sumPE hv lst < thr
  · rw [if_pos hs]; exact ⟨hpw, hcl, hthr⟩
  · rw [if_neg hs]
    have hvne : ((out ++ [lst]).length : ℤ) - 1 ≠ -1 := by
      rw [List.length_append]
      simp only [List.length_singleton]
      omega
    refine ⟨?_, ?_, ?_⟩
    · rw [List.pairwise_append]
      refine ⟨hpw, List.pairwise_singleton _ _, ?_⟩
      intro a ha b hb x hxa
      rcases List.mem_singleton.mp hb with rfl
      intro hxb
      exact hcl a ha x hxa (hlst x hxb)
    · intro l hl h hmem
      rcases List.mem_append.mp hl with hl' | hl'
      · exact claimfold_ne hvne lst claimed (h - prev) (hcl l hl' h hmem)
      · rcases List.mem_singleton.mp hl' with rfl
        exact claimfold_mem hvne l claimed h hmem
    · intro l hl
      rcases List.mem_append.mp hl with hl' | hl'
      · exact hthr l hl'
      · rcases List.mem_singleton.mp hl' with rfl
        exact le_of_not_lt hs

theorem assignfold_inv (hv : List OpHit) (thr : ℚ) (prev : ℕ)
    (Contr1 Contr2 : List (List ℕ)) :
    ∀ (order : List (ℕ × ℕ)) (st : List (List ℕ) × List ℤ),
      AssignInv hv thr prev st →
      AssignInv hv thr prev (order.foldl
        (fun st ab =>
          ClaimHits hv (FillHitsThisFlash (if ab.1 = 1 then Contr1 else Contr2) ab.2 prev st.2)
            thr st.1 prev st.2) st) := by
  intro order
  induction order with
  | nil => intro st h; exact h
  | cons ab order ih =>
    rintro ⟨a, b⟩ h
    rw [List.foldl_cons]
    apply ih
    exact claimHits_inv
      (fillHitsThisFlash_unclaimed (if ab.1 = 1 then Contr1 else Contr2) ab.2 prev b) h

theorem assignHitsToFlash_inv (F1 F2 : List ℕ) (B1 B2 : List ℚ)
    (Contr1 Contr2 : List (List ℕ)) (NHits : ℕ) (hv : List OpHit) (thr : ℚ) :
    (AssignHitsToFlash F1 F2 B1 B2 Contr1 Contr2 NHits hv thr).Pairwise Disj ∧
    (∀ l ∈ AssignHitsToFlash F1 F2 B1 B2 Contr1 Contr2 NHits hv thr, thr ≤ sumPE hv l) := by
  have h := assignfold_inv hv thr (hv.length - NHits) Contr1 Contr2
    (FlashesBySizeOrder F1 F2 B1 B2)
    (([] : List (List ℕ)), List.replicate NHits (-1 : ℤ))
    ⟨List.Pairwise.nil, by intro l hl; exact absurd hl (List.not_mem_nil l),
     by intro l hl; exact absurd hl (List.not_mem_nil l)⟩
  exact ⟨h.1, h.2.2⟩

/-! ### The refiner: seed-and-grow invariants -/

theorem getD_bool_in_range (l : List Bool) (i : ℕ) (h : l.getD i true = false) :
    i < l.length ∧ l.getD i false = false := by
  by_cases hi : i < l.length
  · refine ⟨hi, ?_⟩
    rw [List.getD_eq_getElem?_getD, List.getElem?_eq_getElem hi] at h ⊢
    exact h
  · rw [List.getD_eq_getElem?_getD, List.getElem?_eq_none (by omega)] at h
    simp at h

theorem sumPE_singleton (hv : List OpHit) (i : ℕ) :
    sumPE hv [i] = (hv.getD i default).PE := by simp [sumPE]

theorem sumPE_append_one (hv : List OpHit) (l : List ℕ) (i : ℕ) :
    sumPE hv (l ++ [i]) = sumPE hv l + (hv.getD i default).PE := by
  simp [sumPE]

theorem findSeedHit_some {pool : List ℕ} {used : List Bool} {hv : List OpHit}
    {s0 : RefState} (h : FindSeedHit pool used hv = some s0) :
    ∃ seed, seed ∈ pool ∧ used.getD seed true = false ∧
      s0 = ⟨used.set seed true, [seed], (hv.getD seed default).PE,
            (hv.getD seed default).PeakTime + (hv.getD seed default).Width / 2,
            (hv.getD seed default).PeakTime - (hv.getD seed default).Width / 2⟩ := by
  unfold FindSeedHit at h
  rcases hf : pool.find? (fun hid => !(used.getD hid true)) with _ | seed
  · rw [hf] at h; exact absurd h (by simp)
  · rw [hf] at h
    have hmem := List.mem_of_find?_eq_some hf
    have hp := List.find?_some hf
    rw [Bool.not_eq_true'] at hp
    exact ⟨seed, hmem, hp, by injection h with h'; exact h'.symm⟩

theorem findSeedHit_none {pool : List ℕ} {used : List Bool} {hv : List OpHit}
    (h : ∀ i, ¬(used.getD i false = false ∧ i < used.length)) :
    FindSeedHit pool used hv = none := by
  unfold FindSeedHit
  rcases hf : pool.find? (fun hid => !(used.getD hid true)) with _ | seed
  · rfl
  · have hp := List.find?_some hf
    rw [Bool.not_eq_true'] at hp
    have := getD_bool_in_range used seed hp
    exact absurd ⟨this.2, this.1⟩ (h seed)

theorem addHitToFlash_cases (hid : ℕ) (h : OpHit) (tol : ℚ) (s : RefState) :
    AddHitToFlash hid h tol s = s ∨
    (s.used.getD hid true = false ∧
      AddHitToFlash hid h tol s =
        ⟨s.used.set hid true, s.cand ++ [hid], s.PEAcc + h.PE,
         max s.maxT (h.PeakTime + h.Width / 2),
         min s.minT (h.PeakTime - h.Width / 2)⟩) := by
  unfold AddHitToFlash
  by_cases h1 : s.used.getD hid true
  · rw [if_pos h1]; exact Or.inl rfl
  · rw [if_neg h1]
    by_cases h2 : |h.PeakTime - (s.maxT + s.minT) / 2| > tol * (h.Width / 2 + (s.maxT - s.minT) / 2)
    · rw [if_pos h2]; exact Or.inl rfl
    · rw [if_neg h2]
      exact Or.inr ⟨Bool.not_eq_true _ ▸ (by simpa using h1), rfl⟩

theorem invG_addHit {pool : List ℕ} {hv : List OpHit} {used0 : List Bool} {seed : ℕ}
    {s : RefState} (hs : InvG pool hv used0 seed s) {hid : ℕ} (hpool : hid ∈ pool)
    (tol : ℚ) : InvG pool hv used0 seed (AddHitToFlash hid (hv.getD hid default) tol s) := by
  rcases addHitToFlash_cases hid (hv.getD hid default) tol s with heq | ⟨hna, heq⟩
  · rw [heq]; exact hs
  · obtain ⟨hlen, hnd, ⟨t, hcand⟩, hmem, hmono, hpe⟩ := hs
    obtain ⟨hrange, hfalse⟩ := getD_bool_in_range s.used hid hna
    have hnotc : hid ∉ s.cand := by
      intro hc
      have := (hmem hid hc).2.2.1
      rw [hfalse] at this
      exact Bool.false_ne_true this
    rw [heq]
    refine ⟨by simpa using hlen, ?_, ⟨t ++ [hid], by rw [hcand, List.cons_append]⟩, ?_, ?_, ?_⟩
    · refine List.Nodup.append hnd (List.nodup_singleton hid) ?_
      intro x hx hx'
      rcases List.mem_singleton.mp hx' with rfl
      exact hnotc hx
    · intro h' hmem'
      rcases List.mem_append.mp hmem' with hc | hc
      · obtain ⟨hp, hr, hu, h0⟩ := hmem h' hc
        refine ⟨hp, hr, ?_, h0⟩
        rw [getD_set]
        by_cases hq : hid = h' ∧ h' < s.used.length
        · rw [if_pos hq]
        · rw [if_neg hq]; exact hu
      · rcases List.mem_singleton.mp hc with rfl
        refine ⟨hpool, by omega, ?_, ?_⟩
        · rw [getD_set, if_pos ⟨rfl, hrange⟩]
        · by_cases h0 : used0.getD h' false = true
          · have hcontra := hmono h' h0
            rw [hfalse] at hcontra
            exact absurd hcontra Bool.false_ne_true
          · simpa using h0
    · intro i hi
      have := hmono i hi
      rw [getD_set]
      by_cases hq : hid = i ∧ i < s.used.length
      · rw [if_pos hq]
      · rw [if_neg hq]; exact this
    · rw [sumPE_append_one, hpe]

theorem addHit_cand_len (hid : ℕ) (h : OpHit) (tol : ℚ) (s : RefState) :
    s.cand.length ≤ (AddHitToFlash hid h tol s).cand.length := by
  rcases addHitToFlash_cases hid h tol s with heq | ⟨_, heq⟩
  · rw [heq]
  · rw [heq]
    simp

theorem growPassAux_inv {pool : List ℕ} {hv : List OpHit} {used0 : List Bool}
    {seed : ℕ} (tol : ℚ) :
    ∀ (l : List ℕ), (∀ x ∈ l, x ∈ pool) → ∀ {s : RefState}, InvG pool hv used0 seed s →
      InvG pool hv used0 seed
        (l.foldl (fun s hid => AddHitToFlash hid (hv.getD hid default) tol s) s) := by
  intro l
  induction l with
  | nil => intro _ s hs; exact hs
  | cons x xs ih =>
    intro hsub s hs
    rw [List.foldl_cons]
    exact ih (fun y hy => hsub y (List.mem_cons_of_mem x hy))
      (invG_addHit hs (hsub x (List.mem_cons_self x xs)) tol)

theorem growPass_inv {pool : List ℕ} {hv : List OpHit} {used0 : List Bool}
    {seed : ℕ} (tol : ℚ) {s : RefState} (hs : InvG pool hv used0 seed s) :
    InvG pool hv used0 seed (GrowPass pool hv tol s) :=
  growPassAux_inv tol pool (fun _ hx => hx) hs

theorem invG_cand_len {pool : List ℕ} {hv : List OpHit} {used0 : List Bool}
    {seed : ℕ} {s : RefState} (hs : InvG pool hv used0 seed s) :
    s.cand.length ≤ used0.length := by
  obtain ⟨_, hnd, _, hmem, _, _⟩ := hs
  have hsub : s.cand ⊆ List.range used0.length := by
    intro x hx
    exact List.mem_range.mpr (hmem x hx).2.1
  have := (hnd.subperm hsub).length_le
  simpa using this

theorem growLoop_some {pool : List ℕ} {hv : List OpHit} {used0 : List Bool}
    {seed : ℕ} (tol : ℚ) :
    ∀ (fuel N : ℕ) (s : RefState), InvG pool hv used0 seed s →
      used0.length + 1 ≤ fuel + N →
      ∃ s2, GrowLoop pool hv tol fuel N s = some s2 ∧ InvG pool hv used0 seed s2 := by
  intro fuel
  induction fuel with
  | zero =>
    intro N s hs hb
    have hc : ¬(N < s.cand.length) := by
      have := invG_cand_len hs
      omega
    exact ⟨s, by rw [GrowLoop, if_neg hc], hs⟩
  | succ fuel ih =>
    intro N s hs hb
    by_cases hc : N < s.cand.length
    · have hs' := growPass_inv tol hs
      have hb' : used0.length + 1 ≤ fuel + s.cand.length := by omega
      obtain ⟨s2, heq, hinv⟩ := ih s.cand.length (GrowPass pool hv tol s) hs' hb'
      exact ⟨s2, by rw [GrowLoop, if_pos hc]; exact heq, hinv⟩
    · exact ⟨s, by rw [GrowLoop, if_neg hc], hs⟩

theorem releasefold_length :
    ∀ (l : List ℕ) (u : List Bool),
      (l.foldl (fun u hid => u.set hid false) u).length = u.length := by
  intro l
  induction l with
  | nil => intro u; rfl
  | cons x xs ih => intro u; rw [List.foldl_cons, ih, List.length_set]

theorem releasefold_getD :
    ∀ (l : List ℕ) (u : List Bool) (i : ℕ),
      (l.foldl (fun u hid => u.set hid false) u).getD i false =
        if i ∈ l then false else u.getD i false := by
  intro l
  induction l with
  | nil => intro u i; simp
  | cons x xs ih =>
    intro u i
    rw [List.foldl_cons, ih]
    by_cases hx : i ∈ xs
    · rw [if_pos hx, if_pos (List.mem_cons_of_mem x hx)]
    · rw [if_neg hx]
      by_cases hxi : x = i
      · subst hxi
        rw [if_pos (List.mem_cons_self x xs), getD_set]
        by_cases hr : x < u.length
        · rw [if_pos ⟨rfl, hr⟩]
        · rw [if_neg (fun hq => hr hq.2)]
          rw [List.getD_eq_getElem?_getD, List.getElem?_eq_none (by omega)]
          rfl
      · rw [getD_set, if_neg (fun hq => hxi hq.1)]
        rw [if_neg (by
          intro hmem
          rcases List.mem_cons.mp hmem with h | h
          · exact hxi h.symm
          · exact hx h)]

theorem countFalse_le :
    ∀ (u v : List Bool), u.length = v.length →
      (∀ i, v.getD i false = false → u.getD i false = false) →
      countFalse v ≤ countFalse u := by
  intro u
  induction u with
  | nil =>
    intro v hlen _
    cases v with
    | nil => exact le_refl _
    | cons b v' => simp at hlen
  | cons a u' ih =>
    intro v hlen hpt
    cases v with
    | nil => simp [countFalse]
    | cons b v' =>
      have hlen' : u'.length = v'.length := by simpa using hlen
      have hpt' : ∀ i, v'.getD i false = false → u'.getD i false = false := by
        intro i h
        have := hpt (i + 1) (by simpa using h)
        simpa using this
      have htail := ih v' hlen' hpt'
      have hhead : b = false → a = false := by
        intro hb
        have := hpt 0 (by simpa using hb)
        simpa using this
      cases a
      · cases b <;> simp [countFalse] <;> omega
      · cases b
        · exact absurd (hhead rfl) (by simp)
        · simp [countFalse]
          omega

theorem countFalse_lt :
    ∀ (u v : List Bool), u.length = v.length →
      (∀ i, v.getD i false = false → u.getD i false = false) →
      ∀ k, k < u.length → u.getD k false = false → v.getD k false = true →
      countFalse v < countFalse u := by
  intro u
  induction u with
  | nil =>
    intro v _ _ k hk
    simp at hk
  | cons a u' ih =>
    intro v hlen hpt k hk hu hv
    cases v with
    | nil => simp at hlen
    | cons b v' =>
      have hlen' : u'.length = v'.length := by simpa using hlen
      have hpt' : ∀ i, v'.getD i false = false → u'.getD i false = false := by
        intro i h
        have := hpt (i + 1) (by simpa using h)
        simpa using this
      cases k with
      | zero =>
        have ha : a = false := by simpa using hu
        have hb : b = true := by simpa using hv
        subst ha; subst hb
        have htail := countFalse_le u' v' hlen' hpt'
        simp [countFalse]
        omega
      | succ k' =>
        have hu' : u'.getD k' false = false := by simpa using hu
        have hv' : v'.getD k' false = true := by simpa using hv
        have hk' : k' < u'.length := by simpa using hk
        have htail := ih v' hlen' hpt' k' hk' hu' hv'
        have hhead : b = false → a = false := by
          intro hb
          have := hpt 0 (by simpa using hb)
          simpa using this
        cases a
        · cases b <;> simp [countFalse] <;> omega
        · cases b
          · exact absurd (hhead rfl) (by simp)
          · simp [countFalse]
            omega

/-- Outcome of CheckAndStoreFlash on a grown candidate satisfying InvG:
the HitsUsed vector keeps its length, never resurrects a hit that was unused
before the seed was taken without leaving it unused, keeps the seed consumed,
keeps every previously-used hit used, and either stores nothing or stores
exactly the candidate, which meets the threshold. -/
theorem checkStore_facts {pool : List ℕ} {hv : List OpHit} {used0 : List Bool}
    {seed : ℕ} {s2 : RefState} (hinv : InvG pool hv used0 seed s2)
    (thr : ℚ) (out : List (List ℕ)) :
    (CheckAndStoreFlash out s2.cand s2.PEAcc thr s2.used).2.length = used0.length ∧
    (∀ i, (CheckAndStoreFlash out s2.cand s2.PEAcc thr s2.used).2.getD i false = false →
      used0.getD i false = false) ∧
    (CheckAndStoreFlash out s2.cand s2.PEAcc thr s2.used).2.getD seed false = true ∧
    (∀ i, used0.getD i false = true →
      (CheckAndStoreFlash out s2.cand s2.PEAcc thr s2.used).2.getD i false = true) ∧
    ((CheckAndStoreFlash out s2.cand s2.PEAcc thr s2.used).1 = out ∨
      ((CheckAndStoreFlash out s2.cand s2.PEAcc thr s2.used).1 = out ++ [s2.cand] ∧
        thr ≤ sumPE hv s2.cand ∧
        ∀ h ∈ s2.cand, h ∈ pool ∧
          (CheckAndStoreFlash out s2.cand s2.PEAcc thr s2.used).2.getD h false = true ∧
          used0.getD h false = false)) := by
  obtain ⟨hlen, hnd, ⟨t, hcand⟩, hmem, hmono, hpe⟩ := hinv
  have hseedmem : seed ∈ s2.cand := by rw [hcand]; exact List.mem_cons_self seed t
  have hBfalse : ∀ i, s2.used.getD i false = false → used0.getD i false = false := by
    intro i h
    by_cases h0 : used0.getD i false = true
    · have := hmono i h0
      rw [h] at this
      exact absurd this Bool.false_ne_true
    · simpa using h0
  unfold CheckAndStoreFlash
  by_cases h1 : thr ≤ s2.PEAcc
  · rw [if_pos h1]
    refine ⟨hlen, hBfalse, (hmem seed hseedmem).2.2.1, hmono, Or.inr ⟨rfl, hpe ▸ h1, ?_⟩⟩
    intro h hm
    exact ⟨(hmem h hm).1, (hmem h hm).2.2.1, (hmem h hm).2.2.2⟩
  · rw [if_neg h1]
    by_cases h2 : s2.cand.length = 1
    · rw [if_pos h2]
      exact ⟨hlen, hBfalse, (hmem seed hseedmem).2.2.1, hmono, Or.inl rfl⟩
    · rw [if_neg h2]
      have hdrop : s2.cand.drop 1 = t := by rw [hcand]; rfl
      have hseednot : seed ∉ s2.cand.drop 1 := by
        rw [hdrop]
        intro hmem'
        rw [hcand] at hnd
        exact (List.nodup_cons.mp hnd).1 hmem'
      refine ⟨?_, ?_, ?_, ?_, Or.inl rfl⟩
      · rw [releasefold_length, hlen]
      · intro i h
        rw [releasefold_getD] at h
        by_cases hi : i ∈ s2.cand.drop 1
        · have hic : i ∈ s2.cand := by
            rw [hcand]
            rw [hdrop] at hi
            exact List.mem_cons_of_mem seed hi
          exact (hmem i hic).2.2.2
        · rw [if_neg hi] at h
          exact hBfalse i h
      · rw [releasefold_getD, if_neg hseednot]
        exact (hmem seed hseedmem).2.2.1
      · intro i h0
        rw [releasefold_getD]
        by_cases hi : i ∈ s2.cand.drop 1
        · have hic : i ∈ s2.cand := by
            rw [hcand]
            rw [hdrop] at hi
            exact List.mem_cons_of_mem seed hi
          have := (hmem i hic).2.2.2
          rw [h0] at this
          exact absurd this.symm Bool.false_ne_true
        · rw [if_neg hi]
          exact hmono i h0

theorem invG_seed {pool : List ℕ} {used : List Bool} {hv : List OpHit} {s0 : RefState}
    (h : FindSeedHit pool used hv = some s0) :
    ∃ seed, InvG pool hv used seed s0 ∧ used.getD seed false = false ∧ seed < used.length := by
  obtain ⟨seed, hmem, hfalse, heq⟩ := findSeedHit_some h
  obtain ⟨hrange, hfalse'⟩ := getD_bool_in_range used seed hfalse
  subst heq
  refine ⟨seed, ⟨by simp, List.nodup_singleton seed, ⟨[], rfl⟩, ?_, ?_, (sumPE_singleton hv seed).symm⟩,
    hfalse', hrange⟩
  · intro h' hm
    rcases List.mem_singleton.mp hm with rfl
    refine ⟨hmem, hrange, ?_, hfalse'⟩
    show (used.set h' true).getD h' false = true
    rw [getD_set, if_pos ⟨rfl, hrange⟩]
  · intro i hi
    show (used.set seed true).getD i false = true
    rw [getD_set]
    by_cases hq : seed = i ∧ i < used.length
    · rw [if_pos hq]
    · rw [if_neg hq]; exact hi

theorem refineLoop_spec (pool : List ℕ) (hv : List OpHit) (tol thr : ℚ) :
    ∀ (fuel : ℕ) (used : List Bool) (out : List (List ℕ)) r,
      RefineLoop pool hv tol thr fuel used out = some r →
      RefineInv pool used out →
      RefineInv pool r.2 r.1 ∧
        (∀ l ∈ r.1, l ∈ out ∨ ((∀ h ∈ l, h ∈ pool) ∧ thr ≤ sumPE hv l)) := by
  intro fuel
  induction fuel with
  | zero =>
    intro used out r heq hinv
    rw [RefineLoop] at heq
    rcases hseed : FindSeedHit pool used hv with _ | s0
    · rw [hseed] at heq
      simp only [Option.some.injEq] at heq
      subst heq
      exact ⟨hinv, fun l hl => Or.inl hl⟩
    · rw [hseed] at heq
      exact absurd heq (by simp)
  | succ fuel ih =>
    intro used out r heq hinv
    rw [RefineLoop] at heq
    rcases hseed : FindSeedHit pool used hv with _ | s0
    · rw [hseed] at heq
      simp only [Option.some.injEq] at heq
      subst heq
      exact ⟨hinv, fun l hl => Or.inl hl⟩
    · rw [hseed] at heq
      simp only [] at heq
      obtain ⟨seed, hInvG, hsf, hsr⟩ := invG_seed hseed
      have hlen0 : s0.used.length = used.length := hInvG.1
      obtain ⟨s2, hgrow, hInvG2⟩ := growLoop_some tol (used.length + 2) 0 s0 hInvG (by omega)
      rw [hgrow] at heq
      simp only [] at heq
      obtain ⟨hA, hB, hC, hD, hE⟩ := checkStore_facts hInvG2 thr out
      have hinv2 : RefineInv pool
          (CheckAndStoreFlash out s2.cand s2.PEAcc thr s2.used).2
          (CheckAndStoreFlash out s2.cand s2.PEAcc thr s2.used).1 := by
        rcases hE with hE | ⟨hE1, hE2, hE3⟩
        · rw [hE]
          exact ⟨hinv.1, fun l hl h hm hp => hD _ (hinv.2 l hl h hm hp)⟩
        · rw [hE1]
          constructor
          · rw [List.pairwise_append]
            refine ⟨hinv.1, List.pairwise_singleton _ _, ?_⟩
            intro a ha b hb x hxa
            rcases List.mem_singleton.mp hb with rfl
            intro hxb
            have h1 := hinv.2 a ha x hxa (hE3 x hxb).1
            have h2 := (hE3 x hxb).2.2
            rw [h1] at h2
            exact absurd h2 (by simp)
          · intro l hl h hm hp
            rcases List.mem_append.mp hl with hl' | hl'
            · exact hD _ (hinv.2 l hl' h hm hp)
            · rcases List.mem_singleton.mp hl' with rfl
              exact (hE3 h hm).2.1
      obtain ⟨hfin, horig⟩ := ih _ _ r heq hinv2
      refine ⟨hfin, ?_⟩
      intro l hl
      rcases horig l hl with hl' | hgood
      · rcases hE with hE | ⟨hE1, hE2, hE3⟩
        · rw [hE] at hl'
          exact Or.inl hl'
        · rw [hE1] at hl'
          rcases List.mem_append.mp hl' with h' | h'
          · exact Or.inl h'
          · rcases List.mem_singleton.mp h' with rfl
            exact Or.inr ⟨fun h hm => (hE3 h hm).1, hE2⟩
      · exact Or.inr hgood

theorem refineLoop_isSome (pool : List ℕ) (hv : List OpHit) (tol thr : ℚ) :
    ∀ (fuel : ℕ) (used : List Bool) (out : List (List ℕ)),
      countFalse used < fuel →
      (RefineLoop pool hv tol thr fuel used out).isSome = true := by
  intro fuel
  induction fuel with
  | zero => intro used out h; exact absurd h (Nat.not_lt_zero _)
  | succ fuel ih =>
    intro used out h
    rw [RefineLoop]
    rcases hseed : FindSeedHit pool used hv with _ | s0
    · simp
    · simp only []
      obtain ⟨seed, hInvG, hsf, hsr⟩ := invG_seed hseed
      obtain ⟨s2, hgrow, hInvG2⟩ := growLoop_some tol (used.length + 2) 0 s0 hInvG (by omega)
      rw [hgrow]
      simp only []
      apply ih
      obtain ⟨hA, hB, hC, _, _⟩ := checkStore_facts hInvG2 thr out
      have hlt := countFalse_lt used
        (CheckAndStoreFlash out s2.cand s2.PEAcc thr s2.used).2
        hA.symm hB seed hsr hsf hC
      omega

theorem countFalse_replicate (n : ℕ) : countFalse (List.replicate n false) = n := by
  induction n with
  | zero => rfl
  | succ n ih =>
    simp [List.replicate_succ, countFalse, ih]
    omega

/-- C7: RefineHitsInFlash terminates on every finite input.  The outer loop,
run with fuel one more than the number of hits, always returns: each round
permanently consumes its seed (the strict decrease of the unused count),
the inner growth scan reaches its fixed point within its own fuel bound,
and the loop ends when no unused hit remains. -/
theorem claim_C7 (HitsThisFlash : List ℕ) (hv : List OpHit) (tol thr : ℚ)
    (RefinedHitsPerFlash : List (List ℕ)) :
    (RefineLoop (HitsBySizeOrder HitsThisFlash hv) hv tol thr (hv.length + 1)
      (List.replicate hv.length false) RefinedHitsPerFlash).isSome = true :=
  refineLoop_isSome (HitsBySizeOrder HitsThisFlash hv) hv tol thr (hv.length + 1)
    (List.replicate hv.length false) RefinedHitsPerFlash
    (by rw [countFalse_replicate]; omega)

/-! ### From the refiner to the frame: claims C2, C3, C5 -/

theorem hitsBySizeOrder_subset (l : List ℕ) (hv : List OpHit) :
    ∀ x ∈ HitsBySizeOrder l hv, x ∈ l := by
  intro x hx
  unfold HitsBySizeOrder at hx
  rw [List.mem_flatten] at hx
  obtain ⟨s, hs, hxs⟩ := hx
  rw [List.mem_map] at hs
  obtain ⟨pe, _, rfl⟩ := hs
  exact List.mem_of_mem_filter hxs

theorem refineHitsInFlash_spec (c : List ℕ) (hv : List OpHit)
    (out : List (List ℕ)) (tol thr : ℚ)
    (hpd : out.Pairwise Disj)
    (hdis : ∀ l ∈ out, ∀ h ∈ l, h ∉ c) :
    (RefineHitsInFlash c hv out tol thr).Pairwise Disj ∧
    (∀ l ∈ RefineHitsInFlash c hv out tol thr,
      l ∈ out ∨ ((∀ h ∈ l, h ∈ c) ∧ thr ≤ sumPE hv l)) := by
  have hinv : RefineInv (HitsBySizeOrder c hv) (List.replicate hv.length false) out := by
    refine ⟨hpd, ?_⟩
    intro l hl h hm hp
    exact absurd (hitsBySizeOrder_subset c hv h hp) (hdis l hl h hm)
  unfold RefineHitsInFlash
  rcases heq : RefineLoop (HitsBySizeOrder c hv) hv tol thr (hv.length + 1)
      (List.replicate hv.length false) out with _ | r
  · exact ⟨hpd, fun l hl => Or.inl hl⟩
  · obtain ⟨hfin, horig⟩ := refineLoop_spec (HitsBySizeOrder c hv) hv tol thr
      (hv.length + 1) (List.replicate hv.length false) out r heq hinv
    refine ⟨hfin.1, ?_⟩
    intro l hl
    rcases horig l hl with h | ⟨hsub, hthr⟩
    · exact Or.inl h
    · exact Or.inr ⟨fun h hm => hitsBySizeOrder_subset c hv h (hsub h hm), hthr⟩

theorem refineAll_aux (hv : List OpHit) (tol thr : ℚ) :
    ∀ (cs : List (List ℕ)) (acc : List (List ℕ)),
      cs.Pairwise Disj →
      acc.Pairwise Disj →
      (∀ l ∈ acc, thr ≤ sumPE hv l) →
      (∀ l ∈ acc, ∀ h ∈ l, ∀ c ∈ cs, h ∉ c) →
      ((cs.foldl (fun acc c => RefineHitsInFlash c hv acc tol thr) acc).Pairwise Disj ∧
       (∀ l ∈ cs.foldl (fun acc c => RefineHitsInFlash c hv acc tol thr) acc,
         thr ≤ sumPE hv l)) := by
  intro cs
  induction cs with
  | nil => intro acc _ hpd hthr _; exact ⟨hpd, hthr⟩
  | cons c cs' ih =>
    intro acc hcs hpd hthr hcross
    rw [List.foldl_cons]
    have hcs' := List.pairwise_cons.mp hcs
    have hstep := refineHitsInFlash_spec c hv acc tol thr hpd
      (fun l hl h hm => hcross l hl h hm c (List.mem_cons_self c cs'))
    apply ih _ hcs'.2 hstep.1
    · intro l hl
      rcases hstep.2 l hl with h | ⟨_, h⟩
      · exact hthr l h
      · exact h
    · intro l hl h hm c' hc'
      rcases hstep.2 l hl with h' | ⟨hsub, _⟩
      · exact hcross l h' h hm c' (List.mem_cons_of_mem c hc')
      · exact hcs'.1 c' hc' h (hsub h hm)

theorem frameCoarse_inv (P : FrameParams) (Frame : ℕ) (wfs : List Waveform)
    (hv0 : List OpHit) :
    (FrameCoarse P Frame wfs hv0).Pairwise Disj ∧
    (∀ l ∈ FrameCoarse P Frame wfs hv0,
      P.FlashThreshold ≤ sumPE (FrameHitState P Frame wfs hv0).hits l) :=
  assignHitsToFlash_inv _ _ _ _ _ _ _ _ _

theorem frameRefined_inv (P : FrameParams) (Frame : ℕ) (wfs : List Waveform)
    (hv0 : List OpHit) :
    (FrameRefined P Frame wfs hv0).Pairwise Disj ∧
    (∀ l ∈ FrameRefined P Frame wfs hv0,
      P.FlashThreshold ≤ sumPE (FrameHitState P Frame wfs hv0).hits l) := by
  have h := frameCoarse_inv P Frame wfs hv0
  unfold FrameRefined RefineAll
  exact refineAll_aux _ _ _ _ [] h.1 List.Pairwise.nil
    (by intro l hl; exact absurd hl (List.not_mem_nil l))
    (by intro l hl; exact absurd hl (List.not_mem_nil l))

theorem removefold_sublist (marked : List Bool) (BeginFlash : ℕ) :
    ∀ (idxs : List ℕ) (st : List FlashRec × List (List ℕ)),
      ((idxs.foldl (fun st i =>
        if marked.getD i false then (st.1.eraseIdx (BeginFlash + i), st.2.eraseIdx i)
        else st) st).2).Sublist st.2 := by
  intro idxs
  induction idxs with
  | nil => intro st; exact List.Sublist.refl _
  | cons i idxs ih =>
    intro st
    rw [List.foldl_cons]
    refine List.Sublist.trans (ih _) ?_
    by_cases hm : marked.getD i false
    · rw [if_pos hm]
      exact List.eraseIdx_sublist st.2 i
    · rw [if_neg hm]

theorem removeLateLight_sublist (fv : List FlashRec) (rf : List (List ℕ)) :
    ((RemoveLateLight fv rf).2).Sublist rf := by
  unfold RemoveLateLight RemoveFlashesFromVectors
  exact removefold_sublist _ _ _ _

/-- C2: after the claiming stage no hit index lies in two different flashes'
association sets: the association entries a frame appends are pairwise
disjoint — within a coarse flash by the HitsUsed marks of the refiner (with
hits of a failed candidate released only before final acceptance), and
across coarse flashes by HitClaimedByFlash in the greedy claiming pass. -/
theorem claim_C2 (P : FrameParams) (Frame : ℕ) (wfs : List Waveform)
    (hv0 : List OpHit) (fv0 : List FlashRec) :
    (ProcessFrame P Frame wfs hv0 fv0 []).2.2.Pairwise Disj := by
  have h1 : (ProcessFrame P Frame wfs hv0 fv0 []).2.2 =
      (FrameFinal P Frame wfs hv0 fv0).2.map (fun l => l.map (· + hv0.length)) :=
    List.nil_append _
  rw [h1]
  have hsub : ((FrameFinal P Frame wfs hv0 fv0).2).Sublist (FrameRefined P Frame wfs hv0) :=
    removeLateLight_sublist _ _
  have hpd := List.Pairwise.sublist hsub (frameRefined_inv P Frame wfs hv0).1
  refine List.Pairwise.map _ ?_ hpd
  intro a b hab x hx hx'
  rw [List.mem_map] at hx hx'
  obtain ⟨y, hy, hyx⟩ := hx
  obtain ⟨z, hz, hzx⟩ := hx'
  have hyz : y = z := by omega
  subst hyz
  exact hab y hy hz

/-- C3: the flash-PE threshold is enforced both at the claiming stage (every
coarse flash stored by ClaimHits has summed PE at least the threshold) and
at refinement (every refined set surviving to emission, lateness filter
included, has summed PE at least the threshold). -/
theorem claim_C3 (P : FrameParams) (Frame : ℕ) (wfs : List Waveform)
    (hv0 : List OpHit) (fv0 : List FlashRec) :
    (∀ l ∈ FrameCoarse P Frame wfs hv0,
      P.FlashThreshold ≤ sumPE (FrameHitState P Frame wfs hv0).hits l) ∧
    (∀ l ∈ (FrameFinal P Frame wfs hv0 fv0).2,
      P.FlashThreshold ≤ sumPE (FrameHitState P Frame wfs hv0).hits l) := by
  refine ⟨(frameCoarse_inv P Frame wfs hv0).2, ?_⟩
  intro l hl
  have hsub : ((FrameFinal P Frame wfs hv0 fv0).2).Sublist (FrameRefined P Frame wfs hv0) :=
    removeLateLight_sublist _ _
  exact (frameRefined_inv P Frame wfs hv0).2 l (hsub.subset hl)

theorem addAllAux_TotalPE (hv : List OpHit) :
    ∀ (s : List ℕ) (c : ContribState),
      (s.foldl (fun c i => AddHitContribution (hv.getD i default) c) c).TotalPE =
        c.TotalPE + sumPE hv s := by
  intro s
  induction s with
  | nil => intro c; simp [sumPE]
  | cons i s' ih =>
    intro c
    rw [List.foldl_cons, ih]
    show (AddHitContribution (hv.getD i default) c).TotalPE + _ = _
    have h : (AddHitContribution (hv.getD i default) c).TotalPE =
        c.TotalPE + (hv.getD i default).PE := rfl
    rw [h]
    simp [sumPE]
    ring

theorem addAll_TotalPE (s : List ℕ) (hv : List OpHit) (n : ℕ) :
    (AddAllHitContributions s hv n).TotalPE = sumPE hv s := by
  unfold AddAllHitContributions
  rw [addAllAux_TotalPE]
  show (0 : ℚ) + _ = _
  rw [zero_add]

/-- C5: with a strictly positive flash threshold and non-negative hit PE,
every refined hit set that reaches ConstructFlash has strictly positive
accumulated TotalPE, so none of the PE-weighted-mean divisions in the flash
builder divides by zero. -/
theorem claim_C5 (P : FrameParams) (Frame : ℕ) (wfs : List Waveform)
    (hv0 : List OpHit) (h1 : 0 < P.FlashThreshold)
    (h2 : ∀ h ∈ (FrameHitState P Frame wfs hv0).hits, 0 ≤ h.PE) :
    ∀ s ∈ FrameRefined P Frame wfs hv0,
      0 < (AddAllHitContributions s (FrameHitState P Frame wfs hv0).hits P.NOpChannels).TotalPE := by
  intro s hs
  rw [addAll_TotalPE]
  exact lt_of_lt_of_le h1 ((frameRefined_inv P Frame wfs hv0).2 s hs)

/-- Witness for C5 on the concrete frame: threshold 10 is positive, all
concrete hit PEs are non-negative, and the conclusion follows. -/
theorem claim_C5_witness :
    0 < cP.FlashThreshold ∧
    (∀ h ∈ (FrameHitState cP 1 cWfs cHv0).hits, 0 ≤ h.PE) ∧
    (∀ s ∈ FrameRefined cP 1 cWfs cHv0,
      0 < (AddAllHitContributions s (FrameHitState cP 1 cWfs cHv0).hits cP.NOpChannels).TotalPE) :=
  ⟨by norm_num [cP],
   of_decide_eq_true (by with_unfolding_all rfl),
   claim_C5 cP 1 cWfs cHv0 (by norm_num [cP])
     (of_decide_eq_true (by with_unfolding_all rfl))⟩

/-! ### Claims C1 and C4: concrete divergences of the source -/

/-- C1: the association table does not round-trip with the flash records.
On the concrete two-frame input, the frame's only flash is built from hits
2 and 3 (per-channel PE [0,60,60,0]), but ProcessFrame offsets the already
global indices by NHits_prev again, so the emitted association entry is
[4,5]; re-gathering those indices does not reproduce the stored perChannelPE
vector. -/
theorem claim_C1 :
    cOut.2.2 = [[4, 5]] ∧
    (cOut.2.1.getD 0 default).PEs = [0, 60, 60, 0] ∧
    regatherPEs cOut.1 (cOut.2.2.getD 0 []) 4 ≠ (cOut.2.1.getD 0 default).PEs := by
  refine ⟨by with_unfolding_all rfl, by with_unfolding_all rfl, ?_⟩
  have h : (decide (regatherPEs cOut.1 (cOut.2.2.getD 0 []) 4 =
      (cOut.2.1.getD 0 default).PEs)) = false := by
    with_unfolding_all rfl
  exact of_decide_eq_false h

/-- C4: a below-threshold pulse is not inert.  The concrete pulse of peak
1/2 (below the hit threshold 1) appends no hit, yet processing it changes
accumulator 1: the stale index HitVector.size()-1 re-adds the previous
hit's PE and contributor entry. -/
theorem claim_C4 :
    cPulseBelow.peak < cP.HitThreshold ∧
    (ProcessPulse cP 1 1 0 cStateAfterFirst cPulseBelow).hits = cStateAfterFirst.hits ∧
    (ProcessPulse cP 1 1 0 cStateAfterFirst cPulseBelow).acc1 ≠ cStateAfterFirst.acc1 := by
  refine ⟨by norm_num [cPulseBelow, cP], by with_unfolding_all rfl, ?_⟩
  have h : (decide ((ProcessPulse cP 1 1 0 cStateAfterFirst cPulseBelow).acc1 =
      cStateAfterFirst.acc1)) = false := by
    with_unfolding_all rfl
  exact of_decide_eq_false h

end opdet
